import Mathlib

/-!
Shallow embedding of the Cortex project-scoped memory store
(`packages/core/src/storage.ts`, also shipped verbatim as the unnamed
storage module) and its project-context resolver
(`packages/core/src/context.ts`).  The embedding models:

* JSON values, `JSON.stringify` and `JSON.parse` (numbers restricted to
  integers: JavaScript floats are not shallow-embeddable, and every value
  the repository serializes in its tests and documentation is integral);
* the SQLite-backed `MemoryStore` (rows, project scoping, `LIKE` search,
  `LIMIT`, CHECK constraint on `type`);
* the `ProjectContext` resolver (git-root walk, manifest walk, SHA-256
  path hashing with 16-hex truncation).
-/

namespace Cortex

/-! ## JSON values

JavaScript `JSON` restricted to integer numbers.  Objects are ordered
association lists, mirroring JavaScript insertion order. -/

inductive Json where
  | null : Json
  | bool (b : Bool) : Json
  | num (n : Int) : Json
  | str (s : String) : Json
  | arr (xs : List Json) : Json
  | obj (fields : List (String × Json)) : Json
deriving Repr

/-- Decimal digit character for `d < 10`. -/
def digitCh (d : Nat) : Char := Char.ofNat (48 + d)

/-- Little-endian decimal digits, fuel-bounded (structural, so that the
kernel can evaluate it). -/
def natDigitsAux : Nat → Nat → List Char
  | 0, _ => []
  | fuel + 1, n => if n = 0 then [] else digitCh (n % 10) :: natDigitsAux fuel (n / 10)
-- the recursion is on the first (fuel) argument; `n` itself is enough fuel

/-- Little-endian decimal digits of `n` (empty for `0`). -/
def natDigitsRev (n : Nat) : List Char := natDigitsAux n n

/-- Decimal representation of a natural number, most significant digit first. -/
def natChars (n : Nat) : List Char :=
  if n = 0 then ['0'] else (natDigitsRev n).reverse

/-- Decimal representation of an integer, as printed by `JSON.stringify`. -/
def intChars (n : Int) : List Char :=
  if n < 0 then '-' :: natChars n.natAbs else natChars n.toNat

/-- Lower-case hex digit character for `d < 16`. -/
def hexCh (d : Nat) : Char :=
  if d < 10 then Char.ofNat (48 + d) else Char.ofNat (87 + d)

/-- `JSON.stringify` escaping of one string character: `"` and `\` are
backslash-escaped, the five named control characters use their short
escapes, the remaining control characters use `\u00XX`, and every other
character is emitted verbatim. -/
def escChar (c : Char) : List Char :=
  if c = '"' then ['\\', '"']
  else if c = '\\' then ['\\', '\\']
  else if c = '\x08' then ['\\', 'b']
  else if c = '\t' then ['\\', 't']
  else if c = '\n' then ['\\', 'n']
  else if c = '\x0c' then ['\\', 'f']
  else if c = '\r' then ['\\', 'r']
  else if c.toNat < 32 then
    ['\\', 'u', '0', '0', hexCh (c.toNat / 16), hexCh (c.toNat % 16)]
  else [c]

/-- Emitted form of a JSON string literal (including the quotes). -/
def strLit (s : List Char) : List Char :=
  '"' :: s.flatMap escChar ++ ['"']

mutual

/-- `JSON.stringify` (no spacing), producing a character list. -/
def emit : Json → List Char
  | .null => 'n' :: ['u', 'l', 'l']
  | .bool true => 't' :: ['r', 'u', 'e']
  | .bool false => 'f' :: ['a', 'l', 's', 'e']
  | .num n => intChars n
  | .str s => strLit s.data
  | .arr [] => ['[', ']']
  | .arr (x :: xs) => '[' :: (emit x ++ emitItems xs) ++ [']']
  | .obj [] => ['{', '}']
  | .obj (f :: fs) => '{' :: (emitField f ++ emitFields fs) ++ ['}']

/-- Remaining array elements, each preceded by a comma. -/
def emitItems : List Json → List Char
  | [] => []
  | x :: xs => ',' :: emit x ++ emitItems xs

/-- One object field: quoted key, colon, value. -/
def emitField : String × Json → List Char
  | (k, v) => strLit k.data ++ ':' :: emit v

/-- Remaining object fields, each preceded by a comma. -/
def emitFields : List (String × Json) → List Char
  | [] => []
  | f :: fs => ',' :: emitField f ++ emitFields fs

end

/-- `JSON.stringify` as a string-to-string function. -/
def emitString (v : Json) : String := String.mk (emit v)

/-! ## JSON parser (model of `JSON.parse`)

Structural recursion throughout, with a fuel parameter bounding nesting
depth.  A `none` result models `JSON.parse` throwing a `SyntaxError`. -/

/-- JSON whitespace. -/
def isWs (c : Char) : Bool := c = ' ' || c = '\t' || c = '\n' || c = '\r'

/-- Skip leading JSON whitespace. -/
def skipWs : List Char → List Char
  | [] => []
  | c :: cs => if isWs c then skipWs cs else c :: cs

/-- ASCII decimal digit test. -/
def isDig (c : Char) : Bool := 48 ≤ c.toNat && c.toNat ≤ 57

/-- Numeric value of a hex digit character, if it is one. -/
def hexVal (c : Char) : Option Nat :=
  if 48 ≤ c.toNat ∧ c.toNat ≤ 57 then some (c.toNat - 48)
  else if 97 ≤ c.toNat ∧ c.toNat ≤ 102 then some (c.toNat - 87)
  else if 65 ≤ c.toNat ∧ c.toNat ≤ 70 then some (c.toNat - 55)
  else none

/-- Decoding of the single-character escapes `JSON.parse` accepts. -/
def escDecode (e : Char) : Option Char :=
  if e = '"' then some '"'
  else if e = '\\' then some '\\'
  else if e = '/' then some '/'
  else if e = 'b' then some '\x08'
  else if e = 't' then some '\t'
  else if e = 'n' then some '\n'
  else if e = 'f' then some '\x0c'
  else if e = 'r' then some '\r'
  else none

/-- Parse the body of a string literal after the opening quote; returns the
decoded characters and the input after the closing quote. -/
def parseStrBody : List Char → Option (List Char × List Char)
  | [] => none
  | c :: rest =>
    if c = '"' then some ([], rest)
    else if c = '\\' then
      match rest with
      | [] => none
      | e :: r2 =>
        if e = 'u' then
          match r2 with
          | h1 :: h2 :: h3 :: h4 :: r3 =>
            match hexVal h1, hexVal h2, hexVal h3, hexVal h4 with
            | some a, some b, some v3, some v4 =>
              (parseStrBody r3).map
                (fun r => (Char.ofNat (((a * 16 + b) * 16 + v3) * 16 + v4) :: r.1, r.2))
            | _, _, _, _ => none
          | _ => none
        else
          match escDecode e with
          | some d => (parseStrBody r2).map (fun r => (d :: r.1, r.2))
          | none => none
    else (parseStrBody rest).map (fun r => (c :: r.1, r.2))

/-- Split a leading run of decimal digits from the input. -/
def takeDigits : List Char → List Char × List Char
  | [] => ([], [])
  | c :: cs =>
    if isDig c then
      let r := takeDigits cs
      (c :: r.1, r.2)
    else ([], c :: cs)

/-- Big-endian decimal value of a digit run. -/
def digitsVal (ds : List Char) : Nat :=
  ds.foldl (fun acc c => acc * 10 + (c.toNat - 48)) 0

/-- Parse an integer literal (optional minus sign, then digits). -/
def parseNum (cs : List Char) : Option (Int × List Char) :=
  if cs.head? = some '-' then
    let r := takeDigits cs.tail
    if r.1 = [] then none else some (-(digitsVal r.1 : Int), r.2)
  else
    let r := takeDigits cs
    if r.1 = [] then none else some ((digitsVal r.1 : Int), r.2)

mutual

/-- Parse one JSON value; fuel bounds recursion (structural, so the kernel
can evaluate it). -/
def parseVal : Nat → List Char → Option (Json × List Char)
  | 0, _ => none
  | fuel + 1, cs =>
    match skipWs cs with
    | 'n' :: 'u' :: 'l' :: 'l' :: rest => some (.null, rest)
    | 't' :: 'r' :: 'u' :: 'e' :: rest => some (.bool true, rest)
    | 'f' :: 'a' :: 'l' :: 's' :: 'e' :: rest => some (.bool false, rest)
    | '"' :: rest => (parseStrBody rest).map (fun r => (.str (String.mk r.1), r.2))
    | '[' :: rest =>
      if (skipWs rest).head? = some ']' then some (.arr [], (skipWs rest).tail)
      else (parseItems fuel rest).map (fun r => (.arr r.1, r.2))
    | '{' :: rest =>
      if (skipWs rest).head? = some '}' then some (.obj [], (skipWs rest).tail)
      else (parseMembers fuel rest).map (fun r => (.obj r.1, r.2))
    | cs' => (parseNum cs').map (fun r => (.num r.1, r.2))
  termination_by structural fuel => fuel

/-- Parse a nonempty comma-separated element list up to the closing `]`. -/
def parseItems : Nat → List Char → Option (List Json × List Char)
  | 0, _ => none
  | fuel + 1, cs =>
    match parseVal fuel cs with
    | none => none
    | some (v, rest) =>
      match skipWs rest with
      | ',' :: rest2 => (parseItems fuel rest2).map (fun r => (v :: r.1, r.2))
      | ']' :: rest2 => some ([v], rest2)
      | _ => none
  termination_by structural fuel => fuel

/-- Parse a nonempty comma-separated member list up to the closing `}`. -/
def parseMembers : Nat → List Char → Option (List (String × Json) × List Char)
  | 0, _ => none
  | fuel + 1, cs =>
    match skipWs cs with
    | '"' :: rest =>
      match parseStrBody rest with
      | none => none
      | some (k, rest1) =>
        match skipWs rest1 with
        | ':' :: rest2 =>
          match parseVal fuel rest2 with
          | none => none
          | some (v, rest3) =>
            match skipWs rest3 with
            | ',' :: rest4 => (parseMembers fuel rest4).map (fun r => ((String.mk k, v) :: r.1, r.2))
            | '}' :: rest4 => some ([(String.mk k, v)], rest4)
            | _ => none
        | _ => none
    | _ => none
  termination_by structural fuel => fuel

end

/-- `JSON.parse` as a total model: `none` is a thrown `SyntaxError`. -/
def jsonParse (s : String) : Option Json :=
  match parseVal (s.data.length + 1) s.data with
  | some (v, rest) => if skipWs rest = [] then some v else none
  | none => none

/-! ## SHA-256 (`createHash('sha256')` from `node:crypto`)

Fully executable FIPS 180-4 SHA-256 over byte lists, with UTF-8 encoding
of the input string; machine words are `Nat`s reduced mod `2^32`. -/

/-- Reduce to a 32-bit word. -/
def m32 (x : Nat) : Nat := x % 4294967296

/-- Right rotation of a 32-bit word. -/
def rotr (n x : Nat) : Nat := m32 ((x >>> n) ||| (x <<< (32 - n)))

/-- UTF-8 bytes of one scalar value. -/
def utf8Char (c : Char) : List Nat :=
  let n := c.toNat
  if n < 128 then [n]
  else if n < 2048 then [192 + n / 64, 128 + n % 64]
  else if n < 65536 then [224 + n / 4096, 128 + n / 64 % 64, 128 + n % 64]
  else [240 + n / 262144, 128 + n / 4096 % 64, 128 + n / 64 % 64, 128 + n % 64]

/-- UTF-8 encoding of a string. -/
def utf8Encode (s : String) : List Nat := s.data.flatMap utf8Char

/-- SHA-256 round constants. -/
def shaK : List Nat :=
  [1116352408, 1899447441, 3049323471, 3921009573, 961987163, 1508970993, 2453635748, 2870763221,
   3624381080, 310598401, 607225278, 1426881987, 1925078388, 2162078206, 2614888103, 3248222580,
   3835390401, 4022224774, 264347078, 604807628, 770255983, 1249150122, 1555081692, 1996064986,
   2554220882, 2821834349, 2952996808, 3210313671, 3336571891, 3584528711, 113926993, 338241895,
   666307205, 773529912, 1294757372, 1396182291, 1695183700, 1986661051, 2177026350, 2456956037,
   2730485921, 2820302411, 3259730800, 3345764771, 3516065817, 3600352804, 4094571909, 275423344,
   430227734, 506948616, 659060556, 883997877, 958139571, 1322822218, 1537002063, 1747873779,
   1955562222, 2024104815, 2227730452, 2361852424, 2428436474, 2756734187, 3204031479, 3329325298]

/-- SHA-256 initial hash state. -/
def shaH0 : List Nat :=
  [1779033703, 3144134277, 1013904242, 2773480762, 1359893119, 2600822924, 528734635, 1541459225]

/-- Big-endian byte decomposition, `k` bytes. -/
def toBE (k n : Nat) : List Nat :=
  (List.range k).map (fun i => n >>> (8 * (k - 1 - i)) % 256)

/-- FIPS padding: `0x80`, zeros, then the 64-bit big-endian bit length. -/
def shaPad (msg : List Nat) : List Nat :=
  msg ++ 128 :: List.replicate ((64 - (msg.length + 9) % 64) % 64) 0 ++ toBE 8 (8 * msg.length)

/-- Split a byte list into 64-byte blocks, fuel-bounded (structural). -/
def blocks64Aux : Nat → List Nat → List (List Nat)
  | 0, _ => []
  | fuel + 1, l => if l = [] then [] else l.take 64 :: blocks64Aux fuel (l.drop 64)

/-- Split a byte list into 64-byte blocks. -/
def blocks64 (l : List Nat) : List (List Nat) := blocks64Aux l.length l

/-- The sixteen 32-bit big-endian words of one 64-byte block. -/
def blockWords (b : List Nat) : List Nat :=
  (List.range 16).map (fun i =>
    ((b.getD (4 * i) 0 * 256 + b.getD (4 * i + 1) 0) * 256 + b.getD (4 * i + 2) 0) * 256
      + b.getD (4 * i + 3) 0)

/-- Message-schedule extension to 64 words. -/
def extendWords (w : List Nat) : List Nat :=
  (List.range 48).foldl
    (fun w _ =>
      let k := w.length
      let s0 :=
        m32 (Nat.xor (Nat.xor (rotr 7 (w.getD (k - 15) 0)) (rotr 18 (w.getD (k - 15) 0)))
          (w.getD (k - 15) 0 >>> 3))
      let s1 :=
        m32 (Nat.xor (Nat.xor (rotr 17 (w.getD (k - 2) 0)) (rotr 19 (w.getD (k - 2) 0)))
          (w.getD (k - 2) 0 >>> 10))
      w ++ [m32 (w.getD (k - 16) 0 + s0 + w.getD (k - 7) 0 + s1)])
    w

/-- One SHA-256 compression round. -/
def shaRound (st : List Nat) (ki wi : Nat) : List Nat :=
  let a := st.getD 0 0
  let b := st.getD 1 0
  let c := st.getD 2 0
  let d := st.getD 3 0
  let e := st.getD 4 0
  let f := st.getD 5 0
  let g := st.getD 6 0
  let h := st.getD 7 0
  let s1 := m32 (Nat.xor (Nat.xor (rotr 6 e) (rotr 11 e)) (rotr 25 e))
  let ch := Nat.xor (Nat.land e f) (Nat.land (4294967295 - e) g)
  let t1 := m32 (h + s1 + ch + ki + wi)
  let s0 := m32 (Nat.xor (Nat.xor (rotr 2 a) (rotr 13 a)) (rotr 22 a))
  let mj := Nat.xor (Nat.xor (Nat.land a b) (Nat.land a c)) (Nat.land b c)
  let t2 := m32 (s0 + mj)
  [m32 (t1 + t2), a, b, c, m32 (d + t1), e, f, g]

/-- Process one block: 64 rounds, then add into the running state. -/
def shaBlock (hst : List Nat) (b : List Nat) : List Nat :=
  let w := extendWords (blockWords b)
  let st := (List.range 64).foldl (fun st i => shaRound st (shaK.getD i 0) (w.getD i 0)) hst
  (hst.zip st).map (fun p => m32 (p.1 + p.2))

/-- SHA-256 digest of a byte list, as eight 32-bit words. -/
def sha256Words (msg : List Nat) : List Nat :=
  (blocks64 (shaPad msg)).foldl shaBlock shaH0

/-- Eight lower-case hex characters of a 32-bit word. -/
def wordHex (n : Nat) : List Char :=
  (List.range 8).map (fun i => hexCh (n >>> (4 * (7 - i)) % 16))

/-- Lower-case hex digest of a string's UTF-8 bytes. -/
def sha256Hex (s : String) : List Char :=
  (sha256Words (utf8Encode s)).flatMap wordHex

/-- `hashString` from `context.ts`: the first 16 hex characters of the
SHA-256 digest. -/
def hashString (input : String) : String :=
  String.mk ((sha256Hex input).take 16)

/-! ## The memory store (`storage.ts`)

The SQLite database is a list of rows plus the AUTOINCREMENT counter;
`CURRENT_TIMESTAMP` is an explicit `now` argument.  `tags` and `metadata`
are the serialized TEXT columns (`NULL` = `none`). -/

/-- One row of the `memories` table. -/
structure Row where
  id : Nat
  project_id : Option String
  content : String
  type : String
  source : String
  tags : Option String
  metadata : Option String
  created_at : Nat
  updated_at : Nat
deriving Repr, DecidableEq

/-- The `memories` table plus its AUTOINCREMENT state. -/
structure DB where
  rows : List Row
  nextId : Nat
deriving Repr, DecidableEq

/-- A freshly initialized database (rowids start at 1). -/
def DB.empty : DB := { rows := [], nextId := 1 }

/-- Per-instance state of a `MemoryStore` (fields as stored by the
constructor). -/
structure StoreInstance where
  projectId : Option String
  globalMode : Bool
deriving Repr, DecidableEq

/-- `Memory` as returned to callers (`rowToMemory` output).  `tags` and
`metadata` hold the parsed JSON values. -/
structure Memory where
  id : Nat
  projectId : Option String
  content : String
  type : String
  source : String
  tags : Option Json
  metadata : Option Json
  createdAt : Nat
  updatedAt : Nat
deriving Repr

/-- `add` input (`Omit<Memory, 'id' | 'createdAt' | 'updatedAt'>`). -/
structure MemoryInput where
  projectId : Option String := none
  content : String
  type : String
  source : String
  tags : Option (List String) := none
  metadata : Option (List (String × Json)) := none
deriving Repr

/-- The five values accepted by the CHECK constraint on `type`. -/
def validTypes : List String := ["fact", "decision", "code", "config", "note"]

/-- JavaScript `a || b` for `a : string | undefined` (empty string is
falsy). -/
def jsOrOpt (a b : Option String) : Option String :=
  match a with
  | some s => if s = "" then b else some s
  | none => b

/-- JavaScript truthiness for a nullable string column value. -/
def truthyText (t : Option String) : Option String :=
  match t with
  | some s => if s = "" then none else some s
  | none => none

/-- The project filter a query attaches: the guard
`!this.globalMode && this.projectId` (string truthiness). -/
def activeFilter (st : StoreInstance) : Option String :=
  if st.globalMode then none else truthyText st.projectId

/-- Whether a row passes the instance's project filter
(`project_id = ?`; SQL `NULL` never equals a string). -/
def rowInScope (st : StoreInstance) (r : Row) : Bool :=
  match activeFilter st with
  | none => true
  | some p => r.project_id == some p

/-- Errors an insert can raise. `validationCheck` is the CHECK-constraint
rejection of an unrecognized `type` (the spec's `ValidationError`). -/
inductive AddError where
  | validationCheck : AddError
deriving Repr, DecidableEq

/-- `MemoryStore.add`: validates `type` via the schema CHECK constraint,
serializes `tags`/`metadata` with `JSON.stringify` (absent → SQL `NULL`),
attaches `memory.projectId || this.projectId`, and returns
`last_insert_rowid()`.  On failure the statement aborts and the table is
unchanged. -/
def MemoryStore.add (st : StoreInstance) (db : DB) (now : Nat) (m : MemoryInput) :
    Except AddError Nat × DB :=
  if m.type ∈ validTypes then
    let row : Row :=
      { id := db.nextId
        project_id := jsOrOpt m.projectId st.projectId
        content := m.content
        type := m.type
        source := m.source
        tags := m.tags.map (fun ts => emitString (Json.arr (ts.map Json.str)))
        metadata := m.metadata.map (fun md => emitString (Json.obj md))
        created_at := now
        updated_at := now }
    (.ok db.nextId, { rows := db.rows ++ [row], nextId := db.nextId + 1 })
  else (.error .validationCheck, db)

/-- `rowToMemory`: parses the serialized columns back.  A SQL `NULL` (or
the falsy empty string) becomes `undefined`; `add` never stores text that
`JSON.parse` rejects, so a parse failure is conflated with `none`. -/
def rowToMemory (r : Row) : Memory :=
  { id := r.id
    projectId := r.project_id
    content := r.content
    type := r.type
    source := r.source
    tags := (truthyText r.tags).bind jsonParse
    metadata := (truthyText r.metadata).bind jsonParse
    createdAt := r.created_at
    updatedAt := r.updated_at }

/-- `MemoryStore.get`: lookup by id, restricted to the active project
filter; a foreign-project row is as invisible as a missing one. -/
def MemoryStore.get (st : StoreInstance) (db : DB) (id : Nat) : Option Memory :=
  (db.rows.find? (fun r => r.id == id && rowInScope st r)).map rowToMemory

/-- SQLite `LIKE`: `%` matches any sequence, `_` any single character,
letters compare ASCII-case-insensitively. -/
def foldCh (c : Char) : Char :=
  if 65 ≤ c.toNat ∧ c.toNat ≤ 90 then Char.ofNat (c.toNat + 32) else c

/-- `LIKE` pattern matching, fuel-bounded (every step shortens pattern or
subject, so `ps.length + s.length + 1` is always enough fuel). -/
def likeMatchAux : Nat → List Char → List Char → Bool
  | 0, _, _ => false
  | fuel + 1, ps, s =>
    match ps with
    | [] => s.isEmpty
    | p :: ps' =>
      if p = '%' then
        likeMatchAux fuel ps' s ||
          (match s with
           | [] => false
           | _ :: s' => likeMatchAux fuel (p :: ps') s')
      else if p = '_' then
        (match s with
         | [] => false
         | _ :: s' => likeMatchAux fuel ps' s')
      else
        (match s with
         | [] => false
         | c :: s' => foldCh p == foldCh c && likeMatchAux fuel ps' s')

/-- `LIKE` pattern matching over character lists. -/
def likeMatch (ps s : List Char) : Bool :=
  likeMatchAux (ps.length + s.length + 1) ps s

/-- Stable insertion into a list sorted by `le`. -/
def insertLe {α : Type} (le : α → α → Bool) (x : α) : List α → List α
  | [] => [x]
  | y :: ys => if le x y then x :: y :: ys else y :: insertLe le x ys

/-- Stable insertion sort by `le`. -/
def sortedBy {α : Type} (le : α → α → Bool) (l : List α) : List α :=
  l.foldr (insertLe le) []

/-- `ORDER BY created_at DESC` (stable sort; SQLite leaves the order of
equal keys unspecified, and membership facts do not depend on it). -/
def orderByCreatedDesc (rs : List Row) : List Row :=
  sortedBy (fun a b => Nat.ble b.created_at a.created_at) rs

/-- `LIMIT`: attached only when the option is truthy (0 is falsy); SQLite
treats a negative limit as unlimited. -/
def applyLimit (l : Option Int) (xs : List Row) : List Row :=
  match l with
  | none => xs
  | some n => if n = 0 then xs else if n < 0 then xs else xs.take n.toNat

/-- The `AND type = ?` filter, attached only when the option is truthy. -/
def typeFilterOk (t : Option String) (r : Row) : Bool :=
  match t with
  | none => true
  | some ty => if ty = "" then true else r.type == ty

/-- `MemoryStore.search`: `content LIKE '%' || query || '%'`, project
filter, optional type filter, order by creation time descending, optional
limit. -/
def MemoryStore.search (st : StoreInstance) (db : DB) (query : String)
    (t : Option String) (l : Option Int) : List Memory :=
  (applyLimit l (orderByCreatedDesc (db.rows.filter
    (fun r => likeMatch ('%' :: query.data ++ ['%']) r.content.data
      && rowInScope st r && typeFilterOk t r)))).map rowToMemory

/-- `MemoryStore.list`: like `search` without the content predicate. -/
def MemoryStore.list (st : StoreInstance) (db : DB)
    (t : Option String) (l : Option Int) : List Memory :=
  (applyLimit l (orderByCreatedDesc (db.rows.filter
    (fun r => rowInScope st r && typeFilterOk t r)))).map rowToMemory

/-- `MemoryStore.delete`: `DELETE ... WHERE id = ? [AND project_id = ?]`;
the return value is the literal `true` from the source. -/
def MemoryStore.delete (st : StoreInstance) (db : DB) (id : Nat) : Bool × DB :=
  (true, { db with rows := db.rows.filter (fun r => !(r.id == id && rowInScope st r)) })

/-- `MemoryStore.clear`: counts then deletes every row in scope. -/
def MemoryStore.clear (st : StoreInstance) (db : DB) : Nat × DB :=
  ((db.rows.filter (rowInScope st)).length,
   { db with rows := db.rows.filter (fun r => !rowInScope st r) })

/-- `MemoryStore.stats` result.  `byType` models the
`Object.fromEntries` record as a count function (a type absent from the
record reads as count 0). -/
structure Stats where
  total : Nat
  byType : String → Nat
  projectId : Option String

/-- `MemoryStore.stats`: aggregate counts over the rows in scope. -/
def MemoryStore.stats (st : StoreInstance) (db : DB) : Stats :=
  { total := (db.rows.filter (rowInScope st)).length
    byType := fun ty => (db.rows.filter (fun r => rowInScope st r && r.type == ty)).length
    projectId := truthyText st.projectId }

/-- `MemoryStore.getAllProjects`: distinct non-NULL project ids with
counts, ordered by count descending. -/
def MemoryStore.getAllProjects (db : DB) : List (String × Nat) :=
  sortedBy (fun a b => Nat.ble b.2 a.2)
    (((db.rows.filterMap Row.project_id).dedup).map
      (fun p => (p, (db.rows.filter (fun r => r.project_id == some p)).length)))

/-! ## The project context resolver (`context.ts`)

Paths are canonical absolute paths, modelled as component lists (the
filesystem root is `[]`); `resolve`/`join` on such paths is component
concatenation.  The filesystem is abstracted by the three probes the
resolver performs. -/

/-- JavaScript truthiness of a JSON value. -/
def jsonTruthy : Json → Bool
  | .null => false
  | .bool b => b
  | .num n => !(n == 0)
  | .str s => !(s == "")
  | .arr _ => true
  | .obj _ => true

/-- JavaScript string coercion of a JSON value (template-literal
interpolation), fuel-bounded for nested arrays. -/
def jsToStrAux : Nat → Json → String
  | _, .null => "null"
  | _, .bool true => "true"
  | _, .bool false => "false"
  | _, .num n => String.mk (intChars n)
  | _, .str s => s
  | _, .obj _ => "[object Object]"
  | 0, .arr _ => ""
  | fuel + 1, .arr xs =>
    String.intercalate ","
      (xs.map (fun x => match x with | .null => "" | x => jsToStrAux fuel x))

/-- JavaScript string coercion of a JSON value (the emitted length bounds
the nesting depth, so it is always enough fuel). -/
def jsToStrVal (v : Json) : String := jsToStrAux (emit v).length v

/-- JavaScript property read `j["name"]` on a parsed JSON document (later
duplicate keys overwrite earlier ones). -/
def jGet (j : Json) (key : String) : Option Json :=
  match j with
  | .obj fs => (fs.reverse.find? (fun kv => kv.1 == key)).map Prod.snd
  | _ => none

/-- `${packageJson.name || 'unknown'}` from `detectProjectId`. -/
def manifestName (j : Json) : String :=
  match jGet j "name" with
  | some v => if jsonTruthy v then jsToStrVal v else "unknown"
  | none => "unknown"

/-- The filesystem state the resolver probes: `existsSync(join(d, '.git'))`,
`existsSync(join(d, 'package.json'))`, and `readFileSync` (whose `.error`
is a thrown I/O exception). -/
structure FileSystem where
  hasGit : List String → Bool
  hasPkg : List String → Bool
  readFile : List String → Except Unit String

/-- The ancestor walk `while (currentPath !== root) { ...; currentPath =
resolve(currentPath, '..') }`, fuel-bounded (structural). -/
def walkUpAux {α : Type} (f : List String → Option α) : Nat → List String → Option α
  | 0, _ => none
  | fuel + 1, p =>
    if p = [] then none
    else
      match f p with
      | some a => some a
      | none => walkUpAux f fuel p.dropLast

/-- Walk from `p` up to (but excluding) the filesystem root, returning the
first hit. -/
def walkUp {α : Type} (f : List String → Option α) (p : List String) : Option α :=
  walkUpAux f p.length p

/-- `findGitRoot`: nearest ancestor containing the `.git` marker; the
filesystem root itself is never examined. -/
def findGitRoot (fs : FileSystem) (startPath : List String) : Option (List String) :=
  walkUp (fun d => if fs.hasGit d then some d else none) startPath

/-- `findPackageJson`: path of the nearest ancestor's `package.json`. -/
def findPackageJson (fs : FileSystem) (startPath : List String) : Option (List String) :=
  walkUp (fun d => if fs.hasPkg d then some (d ++ ["package.json"]) else none) startPath

/-- Render a component path as the canonical absolute path string. -/
def pathToString (p : List String) : String :=
  "/" ++ String.intercalate "/" p

/-- `.toLowerCase().replace(/\\/g, '/')` (ASCII case model). -/
def normalizePath (s : String) : String :=
  String.mk (s.data.map (fun c => if foldCh c = '\\' then '/' else foldCh c))

/-- `hashPath`: normalize the canonical path string, then hash.  (`resolve`
of an already-canonical path is the identity.) -/
def hashPath (p : List String) : String :=
  hashString (normalizePath (pathToString p))

/-- `detectProjectId`: strategy 1 (git root), strategy 2 (manifest name and
path — note `JSON.parse(readFileSync(...))` is *not* guarded, so a read or
parse failure, or a `null` document, escapes as an exception), strategy 3
(hash of the starting directory). -/
def detectProjectId (fs : FileSystem) (cwd : List String) : Except Unit String :=
  match findGitRoot fs cwd with
  | some gitRoot => .ok (hashPath gitRoot)
  | none =>
    match findPackageJson fs cwd with
    | some pkgPath =>
      match fs.readFile pkgPath with
      | .error _ => .error ()
      | .ok text =>
        match jsonParse text with
        | none => .error ()
        | some .null => .error ()
        | some j => .ok (hashString (manifestName j ++ ":" ++ pathToString pkgPath))
    | none => .ok (hashPath cwd)

/-- The process-wide resolution cache, keyed by the input directory. -/
def ResolverCache : Type := List (List String × String)

/-- `getProjectId`: cache lookup, else detect and memoize. -/
def getProjectId (fs : FileSystem) (cache : ResolverCache) (cwd : List String) :
    Except Unit (String × ResolverCache) :=
  match cache.find? (fun e => e.1 == cwd) with
  | some e => .ok (e.2, cache)
  | none =>
    match detectProjectId fs cwd with
    | .ok id => .ok (id, (cwd, id) :: cache)
    | .error e => .error e

/-! ## Verification: JSON round-trip -/

theorem char_toNat_ofNat_lt {n : Nat} (h : n < 55296) : (Char.ofNat n).toNat = n := by
  have h2 : n < 55296 ∨ 57343 < n ∧ n < 1114112 := Or.inl h
  simp [Char.ofNat, Char.ofNatAux, Char.toNat, h2, UInt32.toNat]

theorem digitCh_toNat {d : Nat} (h : d < 10) : (digitCh d).toNat = 48 + d := by
  have : 48 + d < 55296 := by omega
  simp [digitCh, char_toNat_ofNat_lt this]

theorem isDig_digitCh {d : Nat} (h : d < 10) : isDig (digitCh d) = true := by
  simp [isDig, digitCh_toNat h]
  omega

theorem hexVal_hexCh : ∀ d < 16, hexVal (hexCh d) = some d := by decide

/-- Every character produced by `natDigitsAux` is a decimal digit. -/
theorem natDigitsAux_all_dig :
    ∀ fuel n : Nat, ∀ c ∈ natDigitsAux fuel n, isDig c = true := by
  intro fuel
  induction fuel with
  | zero => intro n c hc; simp [natDigitsAux] at hc
  | succ fuel ih =>
    intro n c hc
    by_cases h : n = 0
    · simp [natDigitsAux, h] at hc
    · simp only [natDigitsAux, if_neg h, List.mem_cons] at hc
      rcases hc with hc | hc
      · subst hc; exact isDig_digitCh (Nat.mod_lt _ (by omega))
      · exact ih _ _ hc

theorem natChars_all_dig : ∀ n : Nat, ∀ c ∈ natChars n, isDig c = true := by
  intro n c hc
  by_cases h : n = 0
  · simp [natChars, h] at hc
    subst hc; decide
  · simp only [natChars, if_neg h, List.mem_reverse] at hc
    exact natDigitsAux_all_dig _ _ _ hc

theorem natDigitsAux_ne_nil {fuel n : Nat} (hn : n ≠ 0) (hf : fuel ≠ 0) :
    natDigitsAux fuel n ≠ [] := by
  cases fuel with
  | zero => exact absurd rfl hf
  | succ fuel => simp [natDigitsAux, hn]

theorem natChars_ne_nil (n : Nat) : natChars n ≠ [] := by
  by_cases h : n = 0
  · simp [natChars, h]
  · simp only [natChars, if_neg h, ne_eq, List.reverse_eq_nil_iff]
    exact natDigitsAux_ne_nil h h

/-- `takeDigits` splits a digit run off in front of a non-digit. -/
theorem takeDigits_append {ds rest : List Char}
    (hds : ∀ c ∈ ds, isDig c = true)
    (hrest : ∀ c, rest.head? = some c → isDig c = false) :
    takeDigits (ds ++ rest) = (ds, rest) := by
  induction ds with
  | nil =>
    cases rest with
    | nil => simp [takeDigits]
    | cons c r =>
      have := hrest c rfl
      simp [takeDigits, this]
  | cons c ds ih =>
    have hc := hds c (by simp)
    have hds' : ∀ x ∈ ds, isDig x = true := fun x hx => hds x (by simp [hx])
    simp [takeDigits, hc, ih hds']

/-- Decimal digits evaluate back to the number they were printed from. -/
theorem digitsVal_aux :
    ∀ fuel n : Nat, n ≤ fuel → ∀ acc : Nat,
      ((natDigitsAux fuel n).reverse).foldl (fun acc c => acc * 10 + (c.toNat - 48)) acc
        = acc * 10 ^ (natDigitsAux fuel n).length + n := by
  intro fuel
  induction fuel with
  | zero => intro n hn acc; interval_cases n; simp [natDigitsAux]
  | succ fuel ih =>
    intro n hn acc
    by_cases h : n = 0
    · simp [natDigitsAux, h]
    · have hdiv : n / 10 ≤ fuel := by
        have hlt : n / 10 < n := Nat.div_lt_self (Nat.pos_of_ne_zero h) (by omega)
        omega
      have hmod : n % 10 < 10 := Nat.mod_lt _ (by omega)
      simp only [natDigitsAux, if_neg h, List.reverse_cons, List.foldl_append,
        List.foldl_cons, List.foldl_nil, List.length_cons]
      rw [ih _ hdiv acc, digitCh_toNat hmod]
      have hsub : 48 + n % 10 - 48 = n % 10 := by omega
      rw [hsub, Nat.pow_succ]
      have hd : n / 10 * 10 + n % 10 = n := by omega
      have expand :
          (acc * 10 ^ (natDigitsAux fuel (n / 10)).length + n / 10) * 10 + n % 10
            = acc * (10 ^ (natDigitsAux fuel (n / 10)).length * 10)
              + (n / 10 * 10 + n % 10) := by ring
      rw [expand, hd]

theorem digitsVal_natChars (n : Nat) : digitsVal (natChars n) = n := by
  by_cases h : n = 0
  · subst h; decide
  · simp only [natChars, natDigitsRev, if_neg h, digitsVal]
    rw [digitsVal_aux n n (le_refl n) 0]
    simp

/-- `parseNum` inverts `intChars` in front of any non-digit remainder. -/
theorem parseNum_intChars (n : Int) (rest : List Char)
    (hrest : ∀ c, rest.head? = some c → isDig c = false) :
    parseNum (intChars n ++ rest) = some (n, rest) := by
  by_cases hneg : n < 0
  · simp only [intChars, if_pos hneg, List.cons_append]
    have htd : takeDigits (natChars n.natAbs ++ rest) = (natChars n.natAbs, rest) :=
      takeDigits_append (natChars_all_dig _) hrest
    simp [parseNum, htd, natChars_ne_nil, digitsVal_natChars]
    rw [abs_of_neg hneg]
    ring
  · simp only [intChars, if_neg hneg]
    have htd : takeDigits (natChars n.toNat ++ rest) = (natChars n.toNat, rest) :=
      takeDigits_append (natChars_all_dig _) hrest
    have hhead : (natChars n.toNat).head? ≠ some '-' := by
      rcases hh : natChars n.toNat with _ | ⟨c, cs⟩
      · exact absurd hh (natChars_ne_nil _)
      · intro hcon
        simp at hcon
        have hdig := natChars_all_dig n.toNat c (by simp [hh])
        rw [hcon] at hdig
        simp [isDig] at hdig
    simp [parseNum, hhead, htd, natChars_ne_nil, digitsVal_natChars]
    omega

theorem parseStrBody_quote (X : List Char) : parseStrBody ('"' :: X) = some ([], X) := by
  unfold parseStrBody
  simp

/-- Reduction of `parseStrBody` on a decoded single-character escape. -/
theorem parseStrBody_esc {e d : Char} (hne : e ≠ 'u') (hd : escDecode e = some d)
    (X : List Char) :
    parseStrBody ('\\' :: e :: X) = (parseStrBody X).map (fun r => (d :: r.1, r.2)) := by
  conv_lhs => rw [parseStrBody.eq_def]
  simp [if_neg hne, hd]

/-- Reduction of `parseStrBody` on a `\uXXXX` escape. -/
theorem parseStrBody_esc_u (h1 h2 h3 h4 : Char) (X : List Char) :
    parseStrBody ('\\' :: 'u' :: h1 :: h2 :: h3 :: h4 :: X)
      = (match hexVal h1, hexVal h2, hexVal h3, hexVal h4 with
         | some a, some b, some v3, some v4 =>
           (parseStrBody X).map
             (fun r => (Char.ofNat (((a * 16 + b) * 16 + v3) * 16 + v4) :: r.1, r.2))
         | _, _, _, _ => none) := by
  conv_lhs => rw [parseStrBody.eq_def]
  simp

/-- Reduction of `parseStrBody` on an ordinary character. -/
theorem parseStrBody_plain {c : Char} (h1 : c ≠ '"') (h2 : c ≠ '\\') (X : List Char) :
    parseStrBody (c :: X) = (parseStrBody X).map (fun r => (c :: r.1, r.2)) := by
  conv_lhs => rw [parseStrBody.eq_def]
  simp [if_neg h1, if_neg h2]

/-- `parseStrBody` inverts the escaping done by `JSON.stringify`. -/
theorem parseStrBody_emit (s rest : List Char) :
    parseStrBody (s.flatMap escChar ++ '"' :: rest) = some (s, rest) := by
  induction s with
  | nil => simp [parseStrBody_quote]
  | cons c cs ih =>
    simp only [List.flatMap_cons, List.append_assoc]
    by_cases h1 : c = '"'
    · subst h1
      rw [show escChar '"' = ['\\', '"'] by decide]
      simp only [List.cons_append, List.nil_append]
      rw [@parseStrBody_esc '"' '"' (by decide) (by decide), ih]
      rfl
    · by_cases h2 : c = '\\'
      · subst h2
        rw [show escChar '\\' = ['\\', '\\'] by decide]
        simp only [List.cons_append, List.nil_append]
        rw [@parseStrBody_esc '\\' '\\' (by decide) (by decide), ih]
        rfl
      · by_cases h3 : c = '\x08'
        · subst h3
          rw [show escChar '\x08' = ['\\', 'b'] by decide]
          simp only [List.cons_append, List.nil_append]
          rw [@parseStrBody_esc 'b' '\x08' (by decide) (by decide), ih]
          rfl
        · by_cases h4 : c = '\t'
          · subst h4
            rw [show escChar '\t' = ['\\', 't'] by decide]
            simp only [List.cons_append, List.nil_append]
            rw [@parseStrBody_esc 't' '\t' (by decide) (by decide), ih]
            rfl
          · by_cases h5 : c = '\n'
            · subst h5
              rw [show escChar '\n' = ['\\', 'n'] by decide]
              simp only [List.cons_append, List.nil_append]
              rw [@parseStrBody_esc 'n' '\n' (by decide) (by decide), ih]
              rfl
            · by_cases h6 : c = '\x0c'
              · subst h6
                rw [show escChar '\x0c' = ['\\', 'f'] by decide]
                simp only [List.cons_append, List.nil_append]
                rw [@parseStrBody_esc 'f' '\x0c' (by decide) (by decide), ih]
                rfl
              · by_cases h7 : c = '\r'
                · subst h7
                  rw [show escChar '\r' = ['\\', 'r'] by decide]
                  simp only [List.cons_append, List.nil_append]
                  rw [@parseStrBody_esc 'r' '\r' (by decide) (by decide), ih]
                  rfl
                · by_cases h8 : c.toNat < 32
                  · have hdiv : c.toNat / 16 < 16 := by omega
                    have hmod : c.toNat % 16 < 16 := by omega
                    simp only [escChar, if_neg h1, if_neg h2, if_neg h3, if_neg h4,
                      if_neg h5, if_neg h6, if_neg h7, if_pos h8, List.cons_append,
                      List.nil_append]
                    rw [parseStrBody_esc_u]
                    rw [show hexVal '0' = some 0 by decide,
                      hexVal_hexCh _ hdiv, hexVal_hexCh _ hmod]
                    simp only [ih, Option.map_some]
                    have he : ((0 * 16 + 0) * 16 + c.toNat / 16) * 16 + c.toNat % 16
                        = c.toNat := by omega
                    rw [he, Char.ofNat_toNat]
                    rfl
                  · simp only [escChar, if_neg h1, if_neg h2, if_neg h3, if_neg h4,
                      if_neg h5, if_neg h6, if_neg h7, if_neg h8, List.cons_append,
                      List.nil_append]
                    rw [parseStrBody_plain h1 h2, ih]
                    rfl


/-- First character of a decimal representation: always a digit. -/
theorem natChars_head (n : Nat) :
    ∃ c t, natChars n = c :: t ∧ isDig c = true := by
  rcases hh : natChars n with _ | ⟨c, t⟩
  · exact absurd hh (natChars_ne_nil n)
  · exact ⟨c, t, rfl, natChars_all_dig n c (by simp [hh])⟩

/-- First character of an integer literal: a digit or a minus sign. -/
theorem intChars_head (n : Int) :
    ∃ c t, intChars n = c :: t ∧ (isDig c = true ∨ c = '-') := by
  by_cases hneg : n < 0
  · exact ⟨'-', natChars n.natAbs, by simp [intChars, hneg], Or.inr rfl⟩
  · obtain ⟨c, t, hct, hdig⟩ := natChars_head n.toNat
    exact ⟨c, t, by simp [intChars, hneg, hct], Or.inl hdig⟩

/-- The characters that can start an emitted JSON value. -/
def headStart (c : Char) : Prop :=
  c = 'n' ∨ c = 't' ∨ c = 'f' ∨ c = '"' ∨ c = '[' ∨ c = '{' ∨ c = '-' ∨ isDig c = true

instance : DecidablePred headStart := fun c => by
  unfold headStart
  infer_instance

/-- Every emitted value is nonempty and starts with a recognizable
character. -/
theorem emit_cons (v : Json) : ∃ c t, emit v = c :: t ∧ headStart c := by
  cases v with
  | null => exact ⟨'n', _, rfl, Or.inl rfl⟩
  | bool b =>
    cases b with
    | true => exact ⟨'t', _, rfl, Or.inr (Or.inl rfl)⟩
    | false => exact ⟨'f', _, rfl, Or.inr (Or.inr (Or.inl rfl))⟩
  | num n =>
    obtain ⟨c, t, hct, h⟩ := intChars_head n
    refine ⟨c, t, by simp [emit, hct], ?_⟩
    rcases h with h | h
    · exact Or.inr (Or.inr (Or.inr (Or.inr (Or.inr (Or.inr (Or.inr h))))))
    · exact Or.inr (Or.inr (Or.inr (Or.inr (Or.inr (Or.inr (Or.inl h))))))
  | str s =>
    exact ⟨'"', s.data.flatMap escChar ++ ['"'], by simp [emit, strLit],
      Or.inr (Or.inr (Or.inr (Or.inl rfl)))⟩
  | arr xs =>
    cases xs with
    | nil => exact ⟨'[', _, rfl, Or.inr (Or.inr (Or.inr (Or.inr (Or.inl rfl))))⟩
    | cons x xs => exact ⟨'[', _, rfl, Or.inr (Or.inr (Or.inr (Or.inr (Or.inl rfl))))⟩
  | obj fs =>
    cases fs with
    | nil => exact ⟨'{', _, rfl, Or.inr (Or.inr (Or.inr (Or.inr (Or.inr (Or.inl rfl)))))⟩
    | cons f fs => exact ⟨'{', _, rfl, Or.inr (Or.inr (Or.inr (Or.inr (Or.inr (Or.inl rfl)))))⟩

theorem not_ws_of_headStart {c : Char} (h : headStart c) : isWs c = false := by
  by_cases hw : isWs c = true
  · exfalso
    have hc : c = ' ' ∨ c = '\t' ∨ c = '\n' ∨ c = '\r' := by
      simpa [isWs, or_assoc] using hw
    rcases hc with hc | hc | hc | hc <;> subst hc <;> exact absurd h (by decide)
  · simp only [Bool.not_eq_true] at hw
    exact hw

theorem ne_rbrack_of_headStart {c : Char} (h : headStart c) : c ≠ ']' :=
  fun he => absurd (he ▸ h) (by decide)

theorem ne_rbrace_of_headStart {c : Char} (h : headStart c) : c ≠ '}' :=
  fun he => absurd (he ▸ h) (by decide)

/-- `skipWs` is the identity in front of an emitted value. -/
theorem skipWs_emit (v : Json) (rest : List Char) :
    skipWs (emit v ++ rest) = emit v ++ rest := by
  obtain ⟨c, t, hct, h⟩ := emit_cons v
  rw [hct]
  simp [skipWs, not_ws_of_headStart h]

theorem emit_append_head (v : Json) (rest : List Char) :
    ∃ c t, emit v ++ rest = c :: t ∧ headStart c := by
  obtain ⟨c, t, hct, h⟩ := emit_cons v
  exact ⟨c, t ++ rest, by simp [hct], h⟩

/-- An unrecognized head character sends `parseVal` to its number branch. -/
theorem parseVal_default {fuel : Nat} {cs : List Char} {c : Char} {t : List Char}
    (hs : skipWs cs = c :: t)
    (h1 : c ≠ 'n') (h2 : c ≠ 't') (h3 : c ≠ 'f') (h4 : c ≠ '"') (h5 : c ≠ '[')
    (h6 : c ≠ '{') :
    parseVal (fuel + 1) cs = (parseNum (c :: t)).map (fun r => (Json.num r.1, r.2)) := by
  rw [show parseVal (fuel + 1) cs
      = (match skipWs cs with
         | 'n' :: 'u' :: 'l' :: 'l' :: rest => some (.null, rest)
         | 't' :: 'r' :: 'u' :: 'e' :: rest => some (.bool true, rest)
         | 'f' :: 'a' :: 'l' :: 's' :: 'e' :: rest => some (.bool false, rest)
         | '"' :: rest => (parseStrBody rest).map (fun r => (.str (String.mk r.1), r.2))
         | '[' :: rest =>
           if (skipWs rest).head? = some ']' then some (.arr [], (skipWs rest).tail)
           else (parseItems fuel rest).map (fun r => (.arr r.1, r.2))
         | '{' :: rest =>
           if (skipWs rest).head? = some '}' then some (.obj [], (skipWs rest).tail)
           else (parseMembers fuel rest).map (fun r => (.obj r.1, r.2))
         | cs' => (parseNum cs').map (fun r => (.num r.1, r.2))) from rfl]
  rw [hs]
  split
  · rename_i heq; rw [List.cons.injEq] at heq; exact absurd heq.1 h1
  · rename_i heq; rw [List.cons.injEq] at heq; exact absurd heq.1 h2
  · rename_i heq; rw [List.cons.injEq] at heq; exact absurd heq.1 h3
  · rename_i heq; rw [List.cons.injEq] at heq; exact absurd heq.1 h4
  · rename_i heq; rw [List.cons.injEq] at heq; exact absurd heq.1 h5
  · rename_i heq; rw [List.cons.injEq] at heq; exact absurd heq.1 h6
  · rfl

theorem json_sizeOf_pos (v : Json) : 1 ≤ sizeOf v := by
  cases v <;> simp

theorem list_sizeOf_pos {α : Type} [SizeOf α] (l : List α) : 1 ≤ sizeOf l := by
  cases l with
  | nil => simp
  | cons a l => simp; omega

theorem prod_snd_sizeOf_lt {A B : Type} [SizeOf A] [SizeOf B] (p : A × B) :
    sizeOf p.2 < sizeOf p := by
  cases p
  simp only [Prod.mk.sizeOf_spec]
  omega

mutual

/-- Fuel needed by `parseVal` to parse an emitted value. -/
def need : Json → Nat
  | .null => 1
  | .bool _ => 1
  | .num _ => 1
  | .str _ => 1
  | .arr [] => 1
  | .arr (x :: xs) => needItems x xs + 1
  | .obj [] => 1
  | .obj (f :: fs) => needMembers f fs + 1
  termination_by v => sizeOf v
  decreasing_by
    all_goals simp
    all_goals omega

/-- Fuel needed by `parseItems` on an emitted element sequence. -/
def needItems : Json → List Json → Nat
  | x, [] => need x + 1
  | x, y :: ys => max (need x) (needItems y ys) + 1
  termination_by x xs => sizeOf x + sizeOf xs
  decreasing_by
    all_goals simp
    all_goals omega

/-- Fuel needed by `parseMembers` on an emitted member sequence. -/
def needMembers : String × Json → List (String × Json) → Nat
  | f, [] => need f.2 + 1
  | f, g :: gs => max (need f.2) (needMembers g gs) + 1
  termination_by f fs => sizeOf f + sizeOf fs
  decreasing_by
    all_goals simp
    all_goals try omega
    all_goals (have hp := prod_snd_sizeOf_lt f; omega)

end

theorem need_pos (v : Json) : 1 ≤ need v := by
  cases v with
  | arr xs => cases xs <;> simp [need]
  | obj fs => cases fs <;> simp [need]
  | _ => simp [need]

theorem num_head_facts {c : Char} (hd : isDig c = true ∨ c = '-') :
    c ≠ 'n' ∧ c ≠ 't' ∧ c ≠ 'f' ∧ c ≠ '"' ∧ c ≠ '[' ∧ c ≠ '{' ∧ isWs c = false := by
  rcases hd with hd | hd
  · refine ⟨?_, ?_, ?_, ?_, ?_, ?_, ?_⟩
    · intro he; subst he; exact absurd hd (by decide)
    · intro he; subst he; exact absurd hd (by decide)
    · intro he; subst he; exact absurd hd (by decide)
    · intro he; subst he; exact absurd hd (by decide)
    · intro he; subst he; exact absurd hd (by decide)
    · intro he; subst he; exact absurd hd (by decide)
    · exact not_ws_of_headStart (Or.inr (Or.inr (Or.inr (Or.inr (Or.inr (Or.inr
        (Or.inr hd)))))))
  · subst hd
    exact ⟨by decide, by decide, by decide, by decide, by decide, by decide, by decide⟩

theorem emitItems_delim_head (xs : List Json) (rest : List Char) :
    ∀ c, (emitItems xs ++ ']' :: rest).head? = some c → isDig c = false := by
  cases xs with
  | nil => intro c hc; simp [emitItems] at hc; subst hc; decide
  | cons y ys =>
    intro c hc
    simp [emitItems] at hc
    subst hc
    decide

theorem emitFields_delim_head (fs : List (String × Json)) (rest : List Char) :
    ∀ c, (emitFields fs ++ '}' :: rest).head? = some c → isDig c = false := by
  cases fs with
  | nil => intro c hc; simp [emitFields] at hc; subst hc; decide
  | cons g gs =>
    intro c hc
    simp [emitFields] at hc
    subst hc
    decide

theorem parseVal_quote (fuel : Nat) (X : List Char) :
    parseVal (fuel + 1) ('"' :: X)
      = (parseStrBody X).map (fun r => (Json.str (String.mk r.1), r.2)) := rfl

theorem parseVal_lbrack (fuel : Nat) (X : List Char) :
    parseVal (fuel + 1) ('[' :: X)
      = (if (skipWs X).head? = some ']' then some (Json.arr [], (skipWs X).tail)
         else (parseItems fuel X).map (fun r => (Json.arr r.1, r.2))) := rfl

theorem parseVal_lbrace (fuel : Nat) (X : List Char) :
    parseVal (fuel + 1) ('{' :: X)
      = (if (skipWs X).head? = some '}' then some (Json.obj [], (skipWs X).tail)
         else (parseMembers fuel X).map (fun r => (Json.obj r.1, r.2))) := rfl

theorem parseItems_step_comma {g : Nat} {cs r2 : List Char} {v : Json}
    (hv : parseVal g cs = some (v, ',' :: r2)) :
    parseItems (g + 1) cs = (parseItems g r2).map (fun r => (v :: r.1, r.2)) := by
  rw [show parseItems (g + 1) cs
      = (match parseVal g cs with
         | none => none
         | some (v, rest) =>
           match skipWs rest with
           | ',' :: rest2 => (parseItems g rest2).map (fun r => (v :: r.1, r.2))
           | ']' :: rest2 => some ([v], rest2)
           | _ => none) from rfl, hv]
  rfl

theorem parseItems_step_rbrack {g : Nat} {cs r2 : List Char} {v : Json}
    (hv : parseVal g cs = some (v, ']' :: r2)) :
    parseItems (g + 1) cs = some ([v], r2) := by
  rw [show parseItems (g + 1) cs
      = (match parseVal g cs with
         | none => none
         | some (v, rest) =>
           match skipWs rest with
           | ',' :: rest2 => (parseItems g rest2).map (fun r => (v :: r.1, r.2))
           | ']' :: rest2 => some ([v], rest2)
           | _ => none) from rfl, hv]
  rfl

theorem parseMembers_step {g : Nat} {X Y kd tail : List Char} {v : Json}
    (hstr : parseStrBody X = some (kd, ':' :: Y))
    (hval : parseVal g Y = some (v, tail)) :
    parseMembers (g + 1) ('"' :: X)
      = (match skipWs tail with
         | ',' :: rest4 =>
           (parseMembers g rest4).map (fun r => ((String.mk kd, v) :: r.1, r.2))
         | '}' :: rest4 => some ([(String.mk kd, v)], rest4)
         | _ => none) := by
  rw [show parseMembers (g + 1) ('"' :: X)
      = (match parseStrBody X with
         | none => none
         | some (k, rest1) =>
           match skipWs rest1 with
           | ':' :: rest2 =>
             match parseVal g rest2 with
             | none => none
             | some (v, rest3) =>
               match skipWs rest3 with
               | ',' :: rest4 =>
                 (parseMembers g rest4).map (fun r => ((String.mk k, v) :: r.1, r.2))
               | '}' :: rest4 => some ([(String.mk k, v)], rest4)
               | _ => none
           | _ => none) from rfl, hstr]
  show (match parseVal g Y with
        | none => none
        | some (v, rest3) =>
          match skipWs rest3 with
          | ',' :: rest4 =>
            (parseMembers g rest4).map
              (fun (r : List (String × Json) × List Char) =>
                ((String.mk kd, v) :: r.1, r.2))
          | '}' :: rest4 => some ([(String.mk kd, v)], rest4)
          | _ => none)
      = (match skipWs tail with
         | ',' :: rest4 =>
           (parseMembers g rest4).map
             (fun (r : List (String × Json) × List Char) =>
               ((String.mk kd, v) :: r.1, r.2))
         | '}' :: rest4 => some ([(String.mk kd, v)], rest4)
         | _ => none)
  rw [hval]

mutual

/-- `parseVal` inverts `emit`, given enough fuel and a non-digit
continuation. -/
theorem parse_emit : (v : Json) → (rest : List Char) → (fuel : Nat) →
    need v ≤ fuel → (∀ c, rest.head? = some c → isDig c = false) →
    parseVal fuel (emit v ++ rest) = some (v, rest)
  | .null, rest, fuel, hfuel, _ => by
    obtain ⟨g, rfl⟩ : ∃ g, fuel = g + 1 := ⟨fuel - 1, by have := need_pos Json.null; omega⟩
    rfl
  | .bool true, rest, fuel, hfuel, _ => by
    obtain ⟨g, rfl⟩ : ∃ g, fuel = g + 1 :=
      ⟨fuel - 1, by have := need_pos (Json.bool true); omega⟩
    rfl
  | .bool false, rest, fuel, hfuel, _ => by
    obtain ⟨g, rfl⟩ : ∃ g, fuel = g + 1 :=
      ⟨fuel - 1, by have := need_pos (Json.bool false); omega⟩
    rfl
  | .num n, rest, fuel, hfuel, hrest => by
    obtain ⟨g, rfl⟩ : ∃ g, fuel = g + 1 :=
      ⟨fuel - 1, by have := need_pos (Json.num n); omega⟩
    obtain ⟨c, t, hct, hd⟩ := intChars_head n
    obtain ⟨hn, ht, hf, hq, hb, hbr, hw⟩ := num_head_facts hd
    have hs : skipWs (emit (Json.num n) ++ rest) = c :: (t ++ rest) := by
      rw [show emit (Json.num n) = intChars n from rfl, hct]
      simp [skipWs, hw]
    rw [parseVal_default hs hn ht hf hq hb hbr]
    rw [show c :: (t ++ rest) = intChars n ++ rest by rw [hct]; simp]
    rw [parseNum_intChars n rest hrest]
    rfl
  | .str s, rest, fuel, hfuel, _ => by
    obtain ⟨g, rfl⟩ : ∃ g, fuel = g + 1 :=
      ⟨fuel - 1, by have := need_pos (Json.str s); omega⟩
    rw [show emit (Json.str s) ++ rest = '"' :: (s.data.flatMap escChar ++ '"' :: rest) by
      rw [show emit (Json.str s) = strLit s.data from rfl]
      simp [strLit]]
    rw [parseVal_quote, parseStrBody_emit]
    cases s
    rfl
  | .arr [], rest, fuel, hfuel, _ => by
    obtain ⟨g, rfl⟩ : ∃ g, fuel = g + 1 :=
      ⟨fuel - 1, by have := need_pos (Json.arr []); omega⟩
    rfl
  | .arr (x :: xs), rest, fuel, hfuel, _ => by
    obtain ⟨g, rfl⟩ : ∃ g, fuel = g + 1 :=
      ⟨fuel - 1, by have := need_pos (Json.arr (x :: xs)); omega⟩
    have hg : needItems x xs ≤ g := by
      rw [show need (Json.arr (x :: xs)) = needItems x xs + 1 by simp [need]] at hfuel
      omega
    rw [show emit (Json.arr (x :: xs)) ++ rest
        = '[' :: (emit x ++ (emitItems xs ++ ']' :: rest)) by
      rw [show emit (Json.arr (x :: xs)) = '[' :: (emit x ++ emitItems xs) ++ [']'] from rfl]
      simp]
    rw [parseVal_lbrack]
    have hne : (skipWs (emit x ++ (emitItems xs ++ ']' :: rest))).head? ≠ some ']' := by
      obtain ⟨c, t, hct, hh⟩ := emit_cons x
      rw [skipWs_emit x, hct]
      simp
      exact ne_rbrack_of_headStart hh
    rw [if_neg hne]
    rw [parseItems_emit x xs rest g hg]
    rfl
  | .obj [], rest, fuel, hfuel, _ => by
    obtain ⟨g, rfl⟩ : ∃ g, fuel = g + 1 :=
      ⟨fuel - 1, by have := need_pos (Json.obj []); omega⟩
    rfl
  | .obj (f :: fs), rest, fuel, hfuel, _ => by
    obtain ⟨g, rfl⟩ : ∃ g, fuel = g + 1 :=
      ⟨fuel - 1, by have := need_pos (Json.obj (f :: fs)); omega⟩
    have hg : needMembers f fs ≤ g := by
      rw [show need (Json.obj (f :: fs)) = needMembers f fs + 1 by simp [need]] at hfuel
      omega
    rw [show emit (Json.obj (f :: fs)) ++ rest
        = '{' :: (emitField f ++ (emitFields fs ++ '}' :: rest)) by
      rw [show emit (Json.obj (f :: fs)) = '{' :: (emitField f ++ emitFields fs) ++ ['}'] from rfl]
      simp]
    rw [parseVal_lbrace]
    have hne : (skipWs (emitField f ++ (emitFields fs ++ '}' :: rest))).head? ≠ some '}' := by
      rcases f with ⟨k2, v2⟩
      rw [show emitField (k2, v2) = strLit k2.data ++ ':' :: emit v2 from rfl]
      rw [show (strLit k2.data ++ ':' :: emit v2) ++ (emitFields fs ++ '}' :: rest)
          = '"' :: (k2.data.flatMap escChar
              ++ '"' :: (':' :: (emit v2 ++ (emitFields fs ++ '}' :: rest)))) by
        simp [strLit]]
      simp [skipWs, isWs]
    rw [if_neg hne]
    rw [parseMembers_emit f fs rest g hg]
    rfl
  termination_by v => sizeOf v
  decreasing_by
    all_goals simp
    all_goals try omega
    all_goals (have hp := prod_snd_sizeOf_lt f; omega)

/-- `parseItems` inverts a nonempty emitted element sequence. -/
theorem parseItems_emit : (x : Json) → (xs : List Json) → (rest : List Char) →
    (fuel : Nat) → needItems x xs ≤ fuel →
    parseItems fuel (emit x ++ (emitItems xs ++ ']' :: rest)) = some (x :: xs, rest)
  | x, [], rest, fuel, hfuel => by
    obtain ⟨g, rfl⟩ : ∃ g, fuel = g + 1 :=
      ⟨fuel - 1, by simp [needItems] at hfuel; omega⟩
    have hx : need x ≤ g := by simp [needItems] at hfuel; omega
    have h1 : parseVal g (emit x ++ (emitItems [] ++ ']' :: rest)) = some (x, ']' :: rest) := by
      rw [show emitItems [] = [] from rfl, List.nil_append]
      exact parse_emit x (']' :: rest) g hx (by intro c hc; simp at hc; subst hc; decide)
    rw [parseItems_step_rbrack h1]
  | x, y :: ys, rest, fuel, hfuel => by
    obtain ⟨g, rfl⟩ : ∃ g, fuel = g + 1 :=
      ⟨fuel - 1, by simp [needItems] at hfuel; omega⟩
    have hx : need x ≤ g := by simp [needItems] at hfuel; omega
    have hys : needItems y ys ≤ g := by simp [needItems] at hfuel; omega
    have h1 : parseVal g (emit x ++ (emitItems (y :: ys) ++ ']' :: rest))
        = some (x, ',' :: (emit y ++ (emitItems ys ++ ']' :: rest))) := by
      rw [show emitItems (y :: ys) = ',' :: emit y ++ emitItems ys from rfl]
      rw [show (',' :: emit y ++ emitItems ys) ++ ']' :: rest
          = ',' :: (emit y ++ (emitItems ys ++ ']' :: rest)) by simp]
      exact parse_emit x _ g hx (by intro c hc; simp at hc; subst hc; decide)
    rw [parseItems_step_comma h1]
    rw [parseItems_emit y ys rest g hys]
    rfl
  termination_by x xs => sizeOf x + sizeOf xs
  decreasing_by
    all_goals simp
    all_goals omega

/-- `parseMembers` inverts a nonempty emitted member sequence. -/
theorem parseMembers_emit : (f : String × Json) → (fs : List (String × Json)) →
    (rest : List Char) → (fuel : Nat) → needMembers f fs ≤ fuel →
    parseMembers fuel (emitField f ++ (emitFields fs ++ '}' :: rest)) = some (f :: fs, rest)
  | (k, v), [], rest, fuel, hfuel => by
    obtain ⟨g, rfl⟩ : ∃ g, fuel = g + 1 :=
      ⟨fuel - 1, by simp [needMembers] at hfuel; omega⟩
    have hv : need v ≤ g := by simp [needMembers] at hfuel; omega
    rw [show emitField (k, v) ++ (emitFields [] ++ '}' :: rest)
        = '"' :: (k.data.flatMap escChar
            ++ '"' :: (':' :: (emit v ++ (emitFields [] ++ '}' :: rest)))) by
      rw [show emitField (k, v) = strLit k.data ++ ':' :: emit v from rfl]
      simp [strLit]]
    have hstr : parseStrBody (k.data.flatMap escChar
        ++ '"' :: (':' :: (emit v ++ (emitFields [] ++ '}' :: rest))))
        = some (k.data, ':' :: (emit v ++ (emitFields [] ++ '}' :: rest))) :=
      parseStrBody_emit k.data _
    have hval : parseVal g (emit v ++ (emitFields [] ++ '}' :: rest))
        = some (v, emitFields [] ++ '}' :: rest) :=
      parse_emit v _ g hv (emitFields_delim_head [] rest)
    rw [parseMembers_step hstr hval]
    rw [show emitFields ([] : List (String × Json)) = [] from rfl, List.nil_append]
    rw [show skipWs ('}' :: rest) = '}' :: rest from rfl]
    cases k
    rfl
  | (k, v), gg :: gs, rest, fuel, hfuel => by
    obtain ⟨g, rfl⟩ : ∃ g, fuel = g + 1 :=
      ⟨fuel - 1, by simp [needMembers] at hfuel; omega⟩
    have hv : need v ≤ g := by simp [needMembers] at hfuel; omega
    have hgs : needMembers gg gs ≤ g := by simp [needMembers] at hfuel; omega
    rw [show emitField (k, v) ++ (emitFields (gg :: gs) ++ '}' :: rest)
        = '"' :: (k.data.flatMap escChar
            ++ '"' :: (':' :: (emit v ++ (emitFields (gg :: gs) ++ '}' :: rest)))) by
      rw [show emitField (k, v) = strLit k.data ++ ':' :: emit v from rfl]
      simp [strLit]]
    have hstr : parseStrBody (k.data.flatMap escChar
        ++ '"' :: (':' :: (emit v ++ (emitFields (gg :: gs) ++ '}' :: rest))))
        = some (k.data, ':' :: (emit v ++ (emitFields (gg :: gs) ++ '}' :: rest))) :=
      parseStrBody_emit k.data _
    have hval : parseVal g (emit v ++ (emitFields (gg :: gs) ++ '}' :: rest))
        = some (v, emitFields (gg :: gs) ++ '}' :: rest) :=
      parse_emit v _ g hv (emitFields_delim_head (gg :: gs) rest)
    rw [parseMembers_step hstr hval]
    rw [show emitFields (gg :: gs) = ',' :: emitField gg ++ emitFields gs from rfl]
    rw [show (',' :: emitField gg ++ emitFields gs) ++ '}' :: rest
        = ',' :: (emitField gg ++ (emitFields gs ++ '}' :: rest)) by simp]
    show (parseMembers g (emitField gg ++ (emitFields gs ++ '}' :: rest))).map
        (fun r => ((String.mk k.data, v) :: r.1, r.2)) = some ((k, v) :: gg :: gs, rest)
    rw [parseMembers_emit gg gs rest g hgs]
    cases k
    rfl
  termination_by f fs => sizeOf f + sizeOf fs
  decreasing_by
    all_goals simp
    all_goals try omega
    all_goals (have hp := prod_snd_sizeOf_lt f; omega)

end


theorem emit_length_pos (v : Json) : 1 ≤ (emit v).length := by
  obtain ⟨c, t, hct, _⟩ := emit_cons v
  rw [hct]
  simp

mutual

/-- The emitted length (plus one) is always enough fuel. -/
theorem need_le : (v : Json) → need v ≤ (emit v).length + 1
  | .null => by simp [need, emit]
  | .bool true => by simp [need, emit]
  | .bool false => by simp [need, emit]
  | .num n => by simp [need]
  | .str s => by simp [need]
  | .arr [] => by simp [need, emit]
  | .arr (x :: xs) => by
    have h := needItems_le x xs
    rw [show need (Json.arr (x :: xs)) = needItems x xs + 1 by simp [need]]
    rw [show emit (Json.arr (x :: xs)) = '[' :: (emit x ++ emitItems xs) ++ [']'] from rfl]
    simp at h ⊢
    omega
  | .obj [] => by simp [need, emit]
  | .obj (f :: fs) => by
    have h := needMembers_le f fs
    rw [show need (Json.obj (f :: fs)) = needMembers f fs + 1 by simp [need]]
    rw [show emit (Json.obj (f :: fs)) = '{' :: (emitField f ++ emitFields fs) ++ ['}'] from rfl]
    simp at h ⊢
    omega
  termination_by v => sizeOf v
  decreasing_by
    all_goals simp
    all_goals try omega
    all_goals (have hp := prod_snd_sizeOf_lt f; omega)

theorem needItems_le : (x : Json) → (xs : List Json) →
    needItems x xs ≤ (emit x ++ emitItems xs).length + 2
  | x, [] => by
    have h := need_le x
    simp [needItems, emitItems]
    omega
  | x, y :: ys => by
    have h1 := need_le x
    have h2 := needItems_le y ys
    have h3 := emit_length_pos x
    rw [show needItems x (y :: ys) = max (need x) (needItems y ys) + 1 by simp [needItems]]
    rw [show emitItems (y :: ys) = ',' :: emit y ++ emitItems ys from rfl]
    simp at h2 ⊢
    omega
  termination_by x xs => sizeOf x + sizeOf xs
  decreasing_by
    all_goals simp
    all_goals omega

theorem needMembers_le : (f : String × Json) → (fs : List (String × Json)) →
    needMembers f fs ≤ (emitField f ++ emitFields fs).length + 2
  | (k, v), [] => by
    have h := need_le v
    rw [show needMembers (k, v) [] = need v + 1 by simp [needMembers]]
    rw [show emitField (k, v) = strLit k.data ++ ':' :: emit v from rfl]
    simp [emitFields, strLit]
    omega
  | (k, v), gg :: gs => by
    have h1 := need_le v
    have h2 := needMembers_le gg gs
    rw [show needMembers (k, v) (gg :: gs) = max (need v) (needMembers gg gs) + 1 by
      simp [needMembers]]
    rw [show emitFields (gg :: gs) = ',' :: emitField gg ++ emitFields gs from rfl]
    rw [show emitField (k, v) = strLit k.data ++ ':' :: emit v from rfl]
    simp [strLit] at h2 ⊢
    omega
  termination_by f fs => sizeOf f + sizeOf fs
  decreasing_by
    all_goals simp
    all_goals try omega
    all_goals (have hp := prod_snd_sizeOf_lt f; omega)

end

/-- `JSON.parse` inverts `JSON.stringify`: the round-trip theorem. -/
theorem jsonParse_emitString (v : Json) : jsonParse (emitString v) = some v := by
  have hfuel : need v ≤ (emit v).length + 1 := need_le v
  have h := parse_emit v [] ((emit v).length + 1) hfuel (by intro c hc; simp at hc)
  rw [List.append_nil] at h
  rw [show jsonParse (emitString v)
      = (match parseVal ((String.mk (emit v)).data.length + 1) (String.mk (emit v)).data with
         | some (w, rest) => if skipWs rest = [] then some w else none
         | none => none) from rfl]
  rw [show (String.mk (emit v)).data = emit v from rfl]
  rw [h]
  rfl

/-! ## Verification: `LIKE` versus case-insensitive substring containment -/

/-- ASCII-case-insensitive prefix test (the specification-side notion). -/
def startsWithCI : List Char → List Char → Bool
  | [], _ => true
  | _ :: _, [] => false
  | a :: q, b :: s => foldCh a == foldCh b && startsWithCI q s

/-- ASCII-case-insensitive substring containment (the specification-side
notion of "content contains the query as a case-insensitive substring"). -/
def containsCI : List Char → List Char → Bool
  | q, [] => startsWithCI q []
  | q, c :: s => startsWithCI q (c :: s) || containsCI q s

/-- The spec-side search predicate, from the specification's words. -/
def specContainsCI (query content : String) : Bool :=
  containsCI query.data content.data

/-- A query is wildcard-free when it contains neither `%` nor `_`. -/
def noWild (q : List Char) : Bool :=
  q.all (fun c => !(c == '%') && !(c == '_'))

theorem likeMatchAux_pct_all (s : List Char) :
    ∀ fuel : Nat, s.length + 2 ≤ fuel → likeMatchAux fuel ['%'] s = true := by
  induction s with
  | nil =>
    intro fuel hf
    obtain ⟨f, rfl⟩ : ∃ f, fuel = f + 2 := ⟨fuel - 2, by omega⟩
    simp [likeMatchAux]
  | cons c s ih =>
    intro fuel hf
    obtain ⟨f, rfl⟩ : ∃ f, fuel = f + 1 := ⟨fuel - 1, by omega⟩
    simp only [likeMatchAux, reduceIte]
    rw [ih f (by simp at hf; omega)]
    simp

theorem likeMatchAux_of_noWild (q : List Char) (hq : noWild q = true) :
    ∀ (s : List Char) (fuel : Nat), q.length + s.length + 2 ≤ fuel →
      likeMatchAux fuel (q ++ ['%']) s = startsWithCI q s := by
  induction q with
  | nil =>
    intro s fuel hf
    rw [show startsWithCI [] s = true from rfl]
    exact likeMatchAux_pct_all s fuel (by simpa using hf)
  | cons a q ih =>
    intro s fuel hf
    have hq' : noWild q = true := by
      simp only [noWild, List.all_cons, Bool.and_eq_true] at hq
      exact hq.2
    have ha1 : ¬a = '%' := by
      simp only [noWild, List.all_cons, Bool.and_eq_true] at hq
      simpa using hq.1.1
    have ha2 : ¬a = '_' := by
      simp only [noWild, List.all_cons, Bool.and_eq_true] at hq
      simpa using hq.1.2
    obtain ⟨f, rfl⟩ : ∃ f, fuel = f + 1 := ⟨fuel - 1, by omega⟩
    simp only [List.cons_append, likeMatchAux, if_neg ha1, if_neg ha2]
    cases s with
    | nil => rfl
    | cons b s' =>
      show (foldCh a == foldCh b && likeMatchAux f (q ++ ['%']) s')
          = (foldCh a == foldCh b && startsWithCI q s')
      rw [ih hq' s' f (by simp at hf; omega)]

theorem likeMatchAux_pct_wrap (q : List Char) (hq : noWild q = true) :
    ∀ (s : List Char) (fuel : Nat), q.length + s.length + 3 ≤ fuel →
      likeMatchAux fuel ('%' :: (q ++ ['%'])) s = containsCI q s := by
  intro s
  induction s with
  | nil =>
    intro fuel hf
    obtain ⟨f, rfl⟩ : ∃ f, fuel = f + 1 := ⟨fuel - 1, by omega⟩
    simp only [likeMatchAux, reduceIte]
    rw [likeMatchAux_of_noWild q hq [] f (by simp; omega)]
    simp [containsCI]
  | cons b s' ih =>
    intro fuel hf
    obtain ⟨f, rfl⟩ : ∃ f, fuel = f + 1 := ⟨fuel - 1, by omega⟩
    simp only [likeMatchAux, reduceIte]
    rw [likeMatchAux_of_noWild q hq (b :: s') f (by simp at hf ⊢; omega)]
    rw [ih f (by simp at hf ⊢; omega)]
    rfl

/-- For a wildcard-free query, SQLite `LIKE '%' || q || '%'` is exactly
ASCII-case-insensitive substring containment. -/
theorem likeMatch_eq_containsCI (q s : List Char) (hq : noWild q = true) :
    likeMatch ('%' :: q ++ ['%']) s = containsCI q s := by
  rw [show likeMatch ('%' :: q ++ ['%']) s
      = likeMatchAux (('%' :: q ++ ['%']).length + s.length + 1) ('%' :: (q ++ ['%'])) s
      from rfl]
  exact likeMatchAux_pct_wrap q hq s _ (by simp; omega)

/-- The empty query matches every string. -/
theorem containsCI_nil_left (s : List Char) : containsCI [] s = true := by
  cases s <;> rfl

/-! ## Verification: store lemmas -/

/-- The id columns are pairwise distinct (an invariant SQLite's PRIMARY KEY
enforces; `DB.empty` and `add` preserve it). -/
def idsNodup (db : DB) : Prop := (db.rows.map Row.id).Nodup

theorem mem_insertLe {α : Type} (le : α → α → Bool) (x a : α) (l : List α) :
    a ∈ insertLe le x l ↔ a = x ∨ a ∈ l := by
  induction l with
  | nil => simp [insertLe]
  | cons y ys ih =>
    by_cases h : le x y = true
    · simp [insertLe, h]
    · simp only [insertLe, if_neg h, List.mem_cons, ih]
      tauto

theorem mem_sortedBy {α : Type} (le : α → α → Bool) (a : α) (l : List α) :
    a ∈ sortedBy le l ↔ a ∈ l := by
  induction l with
  | nil => simp [sortedBy]
  | cons y ys ih =>
    simp only [sortedBy, List.foldr_cons, List.mem_cons]
    rw [show List.foldr (insertLe le) [] ys = sortedBy le ys from rfl] at *
    rw [mem_insertLe, ih]

theorem mem_orderByCreatedDesc (a : Row) (l : List Row) :
    a ∈ orderByCreatedDesc l ↔ a ∈ l := mem_sortedBy _ a l

theorem rowToMemory_id (r : Row) : (rowToMemory r).id = r.id := rfl

/-- Membership in a mapped, sorted, filtered row list, at the `Memory`
level, for a row of the table (uniqueness of ids gives the converse
direction). -/
theorem mem_map_sorted_filter (db : DB) (p : Row → Bool) (r : Row)
    (hids : idsNodup db) (hr : r ∈ db.rows) :
    rowToMemory r ∈ (orderByCreatedDesc (db.rows.filter p)).map rowToMemory
      ↔ p r = true := by
  constructor
  · intro hmem
    obtain ⟨r', hr', heq⟩ := List.mem_map.mp hmem
    rw [mem_orderByCreatedDesc, List.mem_filter] at hr'
    have hid : r'.id = r.id := by
      rw [← rowToMemory_id, ← rowToMemory_id, heq]
    have : r' = r := List.inj_on_of_nodup_map hids hr'.1 hr hid
    rw [← this]
    exact hr'.2
  · intro hp
    exact List.mem_map_of_mem rowToMemory
      ((mem_orderByCreatedDesc r _).mpr (List.mem_filter.mpr ⟨hr, hp⟩))

theorem applyLimit_none (xs : List Row) : applyLimit none xs = xs := rfl

theorem applyLimit_zero (xs : List Row) : applyLimit (some 0) xs = xs := rfl

theorem find?_append_of_none {α : Type} {p : α → Bool} {l1 l2 : List α}
    (h : l1.find? p = none) : (l1 ++ l2).find? p = l2.find? p := by
  induction l1 with
  | nil => simp
  | cons x xs ih =>
    rw [List.find?_cons] at h
    rcases hx : p x with _ | _
    · rw [List.cons_append, List.find?_cons, hx]
      rw [hx] at h
      exact ih h
    · rw [hx] at h
      simp at h

/-! ## Verification: resolver lemmas -/

theorem walkUpAux_nil {α : Type} (f : List String → Option α) (fuel : Nat) :
    walkUpAux f fuel [] = none := by
  cases fuel <;> simp [walkUpAux]

/-- One step of the ancestor walk. -/
theorem walkUp_step {α : Type} (f : List String → Option α) (p : List String)
    (hp : p ≠ []) :
    walkUp f p = (match f p with
                  | some a => some a
                  | none => walkUp f p.dropLast) := by
  obtain ⟨k, hk⟩ : ∃ k, p.length = k + 1 := by
    cases hl : p.length with
    | zero => exact absurd (List.length_eq_zero.mp hl) hp
    | succ k => exact ⟨k, rfl⟩
  unfold walkUp
  rw [hk]
  rw [show walkUpAux f (k + 1) p
      = (if p = [] then none
         else match f p with
              | some a => some a
              | none => walkUpAux f k p.dropLast) from rfl]
  rw [if_neg hp]
  have hdk : p.dropLast.length = k := by
    rw [List.length_dropLast, hk]
    omega
  rw [hdk]

/-- The git-root walk returns the nearest marker-bearing ancestor: if `q`
carries the marker and no longer prefix of `q ++ t` does, the walk finds
exactly `q`. -/
theorem findGitRoot_eq (fs : FileSystem) (q : List String) (hq : q ≠ [])
    (hmark : fs.hasGit q = true) (t : List String)
    (hnear : ∀ r s, r ++ s = q ++ t → q.length < r.length → fs.hasGit r = false) :
    findGitRoot fs (q ++ t) = some q := by
  induction t using List.reverseRecOn with
  | nil =>
    rw [show findGitRoot fs (q ++ []) = walkUp (fun d => if fs.hasGit d then some d else none) q
      by rw [List.append_nil]; rfl]
    rw [walkUp_step _ q hq, hmark]
    simp
  | append_singleton ts a ih =>
    have hp : q ++ (ts ++ [a]) ≠ [] := by simp
    rw [show findGitRoot fs (q ++ (ts ++ [a]))
        = walkUp (fun d => if fs.hasGit d then some d else none) (q ++ (ts ++ [a])) from rfl]
    rw [walkUp_step _ _ hp]
    have hlast : fs.hasGit (q ++ (ts ++ [a])) = false := by
      refine hnear (q ++ (ts ++ [a])) [] (by simp) ?_
      simp
    rw [hlast]
    have hdrop : (q ++ (ts ++ [a])).dropLast = q ++ ts := by
      rw [show q ++ (ts ++ [a]) = (q ++ ts) ++ [a] by simp]
      simp
    rw [show (if (false : Bool) = true then some (q ++ (ts ++ [a])) else none) = none by simp]
    rw [hdrop]
    exact ih (fun r s hr hlen => hnear r (s ++ [a]) (by rw [← List.append_assoc, hr]; simp) hlen)

/-! ## Verification: claim support lemmas -/

/-- The serializer never emits the empty string (every value starts with a
quote, bracket, brace, digit, sign or keyword letter). -/
theorem emitString_ne_empty (v : Json) : emitString v ≠ "" := by
  obtain ⟨c, t, hct, -⟩ := emit_cons v
  intro h
  have hdata : (emitString v).data = ("" : String).data := by rw [h]
  rw [show (emitString v).data = emit v from rfl, hct] at hdata
  exact List.noConfusion hdata

/-- A serialized value stored in a TEXT column reads back as the value:
the column is truthy (nonempty) and parses to the original. -/
theorem roundtrip_text (v : Json) :
    (truthyText (some (emitString v))).bind jsonParse = some v := by
  show (if emitString v = "" then none else some (emitString v)).bind jsonParse = some v
  rw [if_neg (emitString_ne_empty v)]
  exact jsonParse_emitString v

/-- The row `add` inserts (see `MemoryStore.add`). -/
def addRow (st : StoreInstance) (now : Nat) (m : MemoryInput) (id : Nat) : Row :=
  { id := id
    project_id := jsOrOpt m.projectId st.projectId
    content := m.content
    type := m.type
    source := m.source
    tags := m.tags.map (fun ts => emitString (Json.arr (ts.map Json.str)))
    metadata := m.metadata.map (fun md => emitString (Json.obj md))
    created_at := now
    updated_at := now }

/-- A successful `add` appends exactly `addRow` and returns the rowid. -/
theorem MemoryStore.add_ok (st : StoreInstance) (db : DB) (now : Nat) (m : MemoryInput)
    (hty : m.type ∈ validTypes) :
    MemoryStore.add st db now m
      = (.ok db.nextId,
         { rows := db.rows ++ [addRow st now m db.nextId], nextId := db.nextId + 1 }) := by
  unfold MemoryStore.add addRow
  rw [if_pos hty]

/-- `get` finds a freshly appended in-scope row. -/
theorem get_append_fresh (st : StoreInstance) (rows : List Row) (row : Row) (n : Nat)
    (hfresh : ∀ r ∈ rows, r.id ≠ row.id)
    (hscope : rowInScope st row = true) :
    MemoryStore.get st { rows := rows ++ [row], nextId := n } row.id
      = some (rowToMemory row) := by
  unfold MemoryStore.get
  rw [show ({ rows := rows ++ [row], nextId := n } : DB).rows = rows ++ [row] from rfl]
  rw [find?_append_of_none (List.find?_eq_none.mpr ?fresh)]
  case fresh =>
    intro x hx hcontra
    rw [Bool.and_eq_true] at hcontra
    exact hfresh x hx (by simpa using hcontra.1)
  rw [List.find?_cons_of_pos]
  · rfl
  · rw [Bool.and_eq_true]
    exact ⟨by simp, hscope⟩

/-- Tags of the read-back row: the parsed JSON array (or `none` if absent). -/
theorem rowToMemory_addRow_tags (st : StoreInstance) (now : Nat) (m : MemoryInput) (n : Nat) :
    (rowToMemory (addRow st now m n)).tags
      = m.tags.map (fun ts => Json.arr (ts.map Json.str)) := by
  show (truthyText (m.tags.map (fun ts => emitString (Json.arr (ts.map Json.str))))).bind jsonParse = _
  cases m.tags with
  | none => rfl
  | some ts => exact roundtrip_text (Json.arr (ts.map Json.str))

/-- Metadata of the read-back row: the parsed JSON object (or `none`). -/
theorem rowToMemory_addRow_metadata (st : StoreInstance) (now : Nat) (m : MemoryInput) (n : Nat) :
    (rowToMemory (addRow st now m n)).metadata = m.metadata.map Json.obj := by
  show (truthyText (m.metadata.map (fun md => emitString (Json.obj md)))).bind jsonParse = _
  cases m.metadata with
  | none => rfl
  | some md => exact roundtrip_text (Json.obj md)

/-- `LIMIT` only ever shortens the result. -/
theorem mem_applyLimit {a : Row} {l : Option Int} {xs : List Row}
    (h : a ∈ applyLimit l xs) : a ∈ xs := by
  cases l with
  | none => exact h
  | some n =>
    simp only [applyLimit] at h
    by_cases h0 : n = 0
    · rw [if_pos h0] at h; exact h
    · rw [if_neg h0] at h
      by_cases hneg : n < 0
      · rw [if_pos hneg] at h; exact h
      · rw [if_neg hneg] at h; exact List.mem_of_mem_take h

/-- A non-global instance with a truthy project id filters by that id. -/
theorem activeFilter_eq_some {st : StoreInstance} {p : String}
    (hmode : st.globalMode = false) (hpid : st.projectId = some p) (hp : p ≠ "") :
    activeFilter st = some p := by
  simp [activeFilter, truthyText, hmode, hpid, hp]

/-- Under an active project filter, scope is exactly project-id equality. -/
theorem rowInScope_eq {st : StoreInstance} {p : String}
    (hact : activeFilter st = some p) (x : Row) :
    rowInScope st x = (x.project_id == some p) := by
  unfold rowInScope
  rw [hact]

/-- Re-filtering by a weaker predicate after a stronger one changes nothing. -/
theorem filter_filter_of_imp {α : Type} (p q : α → Bool) (l : List α)
    (h : ∀ a, p a = true → q a = true) :
    (l.filter q).filter p = l.filter p := by
  induction l with
  | nil => rfl
  | cons x xs ih =>
    rcases hp : p x with _ | _
    · rcases hq : q x with _ | _
      · simp [List.filter_cons, hq, hp, ih]
      · simp [List.filter_cons, hq, hp, ih]
    · have hq : q x = true := h x hp
      simp [List.filter_cons, hq, hp, ih]

/-! ## The claims -/

/-- Claim C3: an input memory whose `type` is not one of the five recognized
values makes `add` fail with the `ValidationError` (the CHECK-constraint
rejection) and leaves the store's contents unchanged. -/
theorem add_validation (st : StoreInstance) (db : DB) (now : Nat) (m : MemoryInput)
    (h : m.type ∉ validTypes) :
    MemoryStore.add st db now m = (.error .validationCheck, db) := by
  unfold MemoryStore.add
  rw [if_neg h]

/-- Witness for C3: adding a memory of type "invalid-type" to a fresh store
fails with the validation error and the database stays empty. -/
theorem add_validation_witness :
    ("invalid-type" ∉ validTypes ∧
     MemoryStore.add ⟨some "p", false⟩ DB.empty 0
       { content := "c", type := "invalid-type", source := "manual" }
       = (.error .validationCheck, DB.empty)) :=
  ⟨by decide,
   add_validation ⟨some "p", false⟩ DB.empty 0
     { content := "c", type := "invalid-type", source := "manual" } (by decide)⟩

/-- Claim C10: for `search` and `list`, a limit of 0 is falsy, so no LIMIT
clause is attached and the call behaves exactly like a call with no limit. -/
theorem limit_zero_no_limit (st : StoreInstance) (db : DB) (q : String) (t : Option String) :
    MemoryStore.search st db q t (some 0) = MemoryStore.search st db q t none ∧
    MemoryStore.list st db t (some 0) = MemoryStore.list st db t none :=
  ⟨rfl, rfl⟩

/-- Witness for C10 at a concrete instance and database. -/
theorem limit_zero_no_limit_witness :
    (MemoryStore.search ⟨some "p", false⟩ DB.empty "" none (some 0)
       = MemoryStore.search ⟨some "p", false⟩ DB.empty "" none none ∧
     MemoryStore.list ⟨some "p", false⟩ DB.empty none (some 0)
       = MemoryStore.list ⟨some "p", false⟩ DB.empty none none) :=
  limit_zero_no_limit ⟨some "p", false⟩ DB.empty "" none

/-- Claim C7 (amended): `delete` removes exactly the in-scope rows with the
given id, but its return value is the literal `true` regardless of whether a
row was removed — it does not report "missing" as `false`. -/
theorem delete_semantics (st : StoreInstance) (db : DB) (id : Nat) :
    (MemoryStore.delete st db id).1 = true ∧
    (MemoryStore.delete st db id).2.rows
      = db.rows.filter (fun r => !(r.id == id && rowInScope st r)) :=
  ⟨rfl, rfl⟩

/-- Witness for C7 at a concrete instance and database. -/
theorem delete_semantics_witness :
    ((MemoryStore.delete ⟨some "p", false⟩ DB.empty 5).1 = true ∧
     (MemoryStore.delete ⟨some "p", false⟩ DB.empty 5).2.rows
       = DB.empty.rows.filter (fun r => !(r.id == 5 && rowInScope ⟨some "p", false⟩ r))) :=
  delete_semantics ⟨some "p", false⟩ DB.empty 5

/-- Counterexample for C7: deleting an id that does not exist (empty store)
returns `true`, not the `false` the specification promises. -/
theorem delete_missing_returns_true :
    (MemoryStore.delete ⟨some "p", false⟩ DB.empty 5).1 = true := rfl

/-- A filesystem with no version-control marker anywhere and a manifest at
`/proj` whose contents do not parse as JSON. -/
def fsBad : FileSystem :=
  { hasGit := fun _ => false
    hasPkg := fun d => d == ["proj"]
    readFile := fun p => if p == ["proj", "package.json"] then .ok "not json" else .error () }

/-- Claim C2 (code bug): the resolver *does* raise.  With no git root and a
manifest that fails to parse, the unguarded parse in `detectProjectId`
propagates the exception instead of falling back to strategy 3. -/
theorem resolver_raises_on_bad_manifest :
    detectProjectId fsBad ["proj"] = .error () := by rfl

/-- Claim C4: `get` after `add` returns tags and metadata deep-equal to the
originals (same order), and a memory added with tags or metadata absent reads
back with them absent (`NULL` in the column), distinguishable from an empty
list or empty mapping. -/
theorem add_get_roundtrip (st : StoreInstance) (db : DB) (now : Nat) (m : MemoryInput)
    (hty : m.type ∈ validTypes)
    (hfresh : ∀ r ∈ db.rows, r.id ≠ db.nextId)
    (hvis : activeFilter st = none ∨ jsOrOpt m.projectId st.projectId = activeFilter st) :
    (MemoryStore.get st (MemoryStore.add st db now m).2 db.nextId).map Memory.tags
      = some (m.tags.map (fun ts => Json.arr (ts.map Json.str))) ∧
    (MemoryStore.get st (MemoryStore.add st db now m).2 db.nextId).map Memory.metadata
      = some (m.metadata.map Json.obj) := by
  have hscope : rowInScope st (addRow st now m db.nextId) = true := by
    unfold rowInScope
    cases hact : activeFilter st with
    | none => rfl
    | some p =>
      show (jsOrOpt m.projectId st.projectId == some p) = true
      rcases hvis with h | h
      · rw [hact] at h
        exact Option.noConfusion h
      · rw [hact] at h
        rw [h]
        simp
  have hget : MemoryStore.get st (MemoryStore.add st db now m).2 db.nextId
      = some (rowToMemory (addRow st now m db.nextId)) := by
    rw [MemoryStore.add_ok st db now m hty]
    exact get_append_fresh st db.rows (addRow st now m db.nextId) (db.nextId + 1)
      (fun r hr => hfresh r hr) hscope
  rw [hget]
  constructor
  · rw [Option.map_some', rowToMemory_addRow_tags]
  · rw [Option.map_some', rowToMemory_addRow_metadata]

/-- The C4 witness input: tags `["a", "b"]` and metadata `("k" : 1)`. -/
def mC4 : MemoryInput :=
  { content := "c", type := "fact", source := "manual",
    tags := some ["a", "b"], metadata := some [("k", Json.num 1)] }

/-- Witness for C4: the concrete round trip on a fresh store. -/
theorem add_get_roundtrip_witness :
    ((MemoryStore.get ⟨some "p", false⟩
        (MemoryStore.add ⟨some "p", false⟩ DB.empty 7 mC4).2 DB.empty.nextId).map Memory.tags
       = some (mC4.tags.map (fun ts => Json.arr (ts.map Json.str))) ∧
     (MemoryStore.get ⟨some "p", false⟩
        (MemoryStore.add ⟨some "p", false⟩ DB.empty 7 mC4).2 DB.empty.nextId).map Memory.metadata
       = some (mC4.metadata.map Json.obj)) :=
  add_get_roundtrip ⟨some "p", false⟩ DB.empty 7 mC4 (by decide)
    (by intro r hr; exact absurd hr (by simp [DB.empty])) (Or.inr rfl)

/-- Claim C1 (amended): a row whose stored `project_id` differs from the
active project `p` of a non-global instance is invisible: `get` reports it
as missing, `search` and `list` never return it, and `stats` computes the
same aggregates as on the table restricted to project `p`'s rows.  (The
unamended claim fails because `add` attaches the per-call
`memory.projectId` override before the instance's project id.) -/
theorem project_isolation (st : StoreInstance) (p : String) (db : DB) (r : Row)
    (q : String) (t : Option String) (l : Option Int)
    (hmode : st.globalMode = false) (hpid : st.projectId = some p) (hp : p ≠ "")
    (hids : idsNodup db) (hr : r ∈ db.rows) (hne : r.project_id ≠ some p) :
    MemoryStore.get st db r.id = none ∧
    rowToMemory r ∉ MemoryStore.search st db q t l ∧
    rowToMemory r ∉ MemoryStore.list st db t l ∧
    MemoryStore.stats st db
      = MemoryStore.stats st
          { rows := db.rows.filter (fun x => x.project_id == some p),
            nextId := db.nextId } := by
  have hact : activeFilter st = some p := activeFilter_eq_some hmode hpid hp
  have hscope : ∀ x : Row, rowInScope st x = (x.project_id == some p) := rowInScope_eq hact
  have hrscope : rowInScope st r = false := by
    rw [hscope]
    exact beq_eq_false_iff_ne.mpr hne
  refine ⟨?_, ?_, ?_, ?_⟩
  · unfold MemoryStore.get
    rw [List.find?_eq_none.mpr ?none]
    case none =>
      intro x hx hcontra
      rw [Bool.and_eq_true] at hcontra
      have hxid : x.id = r.id := by simpa using hcontra.1
      have hxr : x = r := List.inj_on_of_nodup_map hids hx hr hxid
      rw [hxr] at hcontra
      rw [hrscope] at hcontra
      exact Bool.false_ne_true hcontra.2
    rfl
  · intro hmem
    unfold MemoryStore.search at hmem
    obtain ⟨x, hx, hxeq⟩ := List.mem_map.mp hmem
    have hx' := mem_applyLimit hx
    rw [mem_orderByCreatedDesc, List.mem_filter] at hx'
    have hxid : x.id = r.id := by rw [← rowToMemory_id, ← rowToMemory_id, hxeq]
    have hxr : x = r := List.inj_on_of_nodup_map hids hx'.1 hr hxid
    have hpred := hx'.2
    rw [hxr, Bool.and_eq_true, Bool.and_eq_true, hrscope] at hpred
    exact Bool.false_ne_true hpred.1.2
  · intro hmem
    unfold MemoryStore.list at hmem
    obtain ⟨x, hx, hxeq⟩ := List.mem_map.mp hmem
    have hx' := mem_applyLimit hx
    rw [mem_orderByCreatedDesc, List.mem_filter] at hx'
    have hxid : x.id = r.id := by rw [← rowToMemory_id, ← rowToMemory_id, hxeq]
    have hxr : x = r := List.inj_on_of_nodup_map hids hx'.1 hr hxid
    have hpred := hx'.2
    rw [hxr, Bool.and_eq_true, hrscope] at hpred
    exact Bool.false_ne_true hpred.1
  · have hfun : (fun x : Row => x.project_id == some p) = rowInScope st :=
      funext (fun x => (hscope x).symm)
    have h1 : (db.rows.filter (rowInScope st)).filter (rowInScope st)
        = db.rows.filter (rowInScope st) :=
      filter_filter_of_imp _ _ _ (fun a ha => ha)
    have h2 : ∀ ty : String,
        ((db.rows.filter (rowInScope st)).filter (fun x => rowInScope st x && x.type == ty))
          = db.rows.filter (fun x => rowInScope st x && x.type == ty) :=
      fun ty => filter_filter_of_imp _ _ _
        (fun a ha => by rw [Bool.and_eq_true] at ha; exact ha.1)
    simp only [MemoryStore.stats, hfun, h1, h2]

/-- The C1 witness row: a memory of project `p1`. -/
def rowW1 : Row :=
  { id := 1, project_id := some "p1", content := "c", type := "fact",
    source := "manual", tags := none, metadata := none,
    created_at := 0, updated_at := 0 }

/-- The C1 witness table: exactly that one row. -/
def dbW1 : DB := { rows := [rowW1], nextId := 2 }

/-- Witness for C1: the `p1` row is invisible to a `p2`-scoped instance. -/
theorem project_isolation_witness :
    (MemoryStore.get ⟨some "p2", false⟩ dbW1 rowW1.id = none ∧
     rowToMemory rowW1 ∉ MemoryStore.search ⟨some "p2", false⟩ dbW1 "" none none ∧
     rowToMemory rowW1 ∉ MemoryStore.list ⟨some "p2", false⟩ dbW1 none none ∧
     MemoryStore.stats ⟨some "p2", false⟩ dbW1
       = MemoryStore.stats ⟨some "p2", false⟩
           { rows := dbW1.rows.filter (fun x => x.project_id == some "p2"),
             nextId := dbW1.nextId }) :=
  project_isolation ⟨some "p2", false⟩ "p2" dbW1 rowW1 "" none none rfl rfl
    (by decide) (by unfold idsNodup; decide) (by decide) (by decide)

/-- Counterexample for C1: a memory added *through* an instance scoped to
`p1`, with a per-call `projectId` override of `p2`, is returned by a
non-global instance scoped to `p2` — the instance the memory was added
through does not determine its project. -/
theorem isolation_override_counterexample :
    (MemoryStore.get ⟨some "p2", false⟩
       (MemoryStore.add ⟨some "p1", false⟩ DB.empty 0
          { projectId := some "p2", content := "c", type := "fact",
            source := "manual" }).2 1).isSome = true := by decide

/-- Claim C5 (amended): a global-mode instance sees every row, and a
non-global instance scoped to `p` sees exactly the rows stored under `p` —
so the global view is the union over the project identifiers present in the
store *plus* the rows whose `project_id` is NULL, which no project-scoped
instance ever sees.  (The unamended claim fails because a row added with no
project id at all is visible globally but under no identifier.) -/
theorem global_visibility (stG stP : StoreInstance) (p : String) (db : DB) (r : Row)
    (hG : stG.globalMode = true) (hP : stP.globalMode = false)
    (hPpid : stP.projectId = some p) (hp : p ≠ "")
    (hids : idsNodup db) (hr : r ∈ db.rows) :
    rowToMemory r ∈ MemoryStore.list stG db none none ∧
    (rowToMemory r ∈ MemoryStore.list stP db none none ↔ r.project_id = some p) := by
  have hactG : activeFilter stG = none := by
    unfold activeFilter
    rw [hG]
    rfl
  have hactP : activeFilter stP = some p := activeFilter_eq_some hP hPpid hp
  constructor
  · unfold MemoryStore.list
    rw [applyLimit_none,
        mem_map_sorted_filter db (fun x => rowInScope stG x && typeFilterOk none x) r hids hr]
    show (rowInScope stG r && typeFilterOk none r) = true
    unfold rowInScope
    rw [hactG]
    rfl
  · unfold MemoryStore.list
    rw [applyLimit_none,
        mem_map_sorted_filter db (fun x => rowInScope stP x && typeFilterOk none x) r hids hr]
    show (rowInScope stP r && typeFilterOk none r) = true ↔ r.project_id = some p
    rw [rowInScope_eq hactP r]
    show (r.project_id == some p && true) = true ↔ r.project_id = some p
    rw [Bool.and_true]
    exact beq_iff_eq

/-- The C5 witness row: a memory stored under project `p1`. -/
def rowW5 : Row :=
  { id := 1, project_id := some "p1", content := "c", type := "note",
    source := "manual", tags := none, metadata := none,
    created_at := 0, updated_at := 0 }

/-- The C5 witness table: exactly that one row. -/
def dbW5 : DB := { rows := [rowW5], nextId := 2 }

/-- Witness for C5: the row is globally visible, and visible to a
`p1`-scoped instance exactly because it is stored under `p1`. -/
theorem global_visibility_witness :
    (rowToMemory rowW5 ∈ MemoryStore.list ⟨none, true⟩ dbW5 none none ∧
     (rowToMemory rowW5 ∈ MemoryStore.list ⟨some "p1", false⟩ dbW5 none none
        ↔ rowW5.project_id = some "p1")) :=
  global_visibility ⟨none, true⟩ ⟨some "p1", false⟩ "p1" dbW5 rowW5 rfl rfl rfl
    (by decide) (by unfold idsNodup; decide) (by decide)

/-- A table holding one row with no project id, as produced by `add` through
an instance that has neither a project id nor a per-call override. -/
def dbNull : DB :=
  { rows := [{ id := 1, project_id := none, content := "c", type := "note",
               source := "manual", tags := none, metadata := none,
               created_at := 0, updated_at := 0 }],
    nextId := 2 }

/-- Counterexample for C5: a NULL-project row (reachable through `add` on a
global-mode instance) is listed in global mode, yet the store holds no
project identifier at all — the union over identifiers present is empty, so
the global view is strictly larger than that union. -/
theorem global_not_union_counterexample :
    (MemoryStore.add ⟨none, true⟩ DB.empty 0
       { content := "c", type := "note", source := "manual" }).2 = dbNull ∧
    (MemoryStore.list ⟨none, true⟩ dbNull none none).length = 1 ∧
    MemoryStore.getAllProjects dbNull = [] := by
  refine ⟨rfl, rfl, rfl⟩

/-- Claim C6 (amended): for a query free of the `LIKE` wildcards `%` and
`_`, a table row appears in `search(query)` (no limit) exactly when its
content contains the query as an ASCII-case-insensitive substring, the row
is in the instance's project scope, and it passes the (truthy) type filter.
The empty query satisfies the containment for every row.  (The unamended
claim fails because a `%` or `_` in the query is interpreted by `LIKE`, not
matched literally.) -/
theorem search_semantics (st : StoreInstance) (db : DB) (q : String)
    (t : Option String) (r : Row)
    (hq : noWild q.data = true) (hids : idsNodup db) (hr : r ∈ db.rows) :
    rowToMemory r ∈ MemoryStore.search st db q t none
      ↔ (specContainsCI q r.content = true ∧ rowInScope st r = true
          ∧ typeFilterOk t r = true) := by
  unfold MemoryStore.search
  rw [applyLimit_none,
      mem_map_sorted_filter db
        (fun x => likeMatch ('%' :: q.data ++ ['%']) x.content.data
          && rowInScope st x && typeFilterOk t x) r hids hr]
  show (likeMatch ('%' :: q.data ++ ['%']) r.content.data
          && rowInScope st r && typeFilterOk t r) = true ↔ _
  rw [likeMatch_eq_containsCI q.data r.content.data hq]
  unfold specContainsCI
  rw [Bool.and_eq_true, Bool.and_eq_true]
  rw [and_assoc]

/-- The C6 witness row, from the specification's own example. -/
def rowC6 : Row :=
  { id := 1, project_id := some "p", content := "TypeScript is great",
    type := "fact", source := "manual", tags := none, metadata := none,
    created_at := 0, updated_at := 0 }

/-- The C6 witness table: exactly that one row. -/
def dbC6 : DB := { rows := [rowC6], nextId := 2 }

/-- Witness for C6 at the specification's example: searching "SCRIPT" in a
store holding "TypeScript is great". -/
theorem search_semantics_witness :
    (rowToMemory rowC6 ∈ MemoryStore.search ⟨some "p", false⟩ dbC6 "SCRIPT" none none
      ↔ (specContainsCI "SCRIPT" rowC6.content = true
          ∧ rowInScope ⟨some "p", false⟩ rowC6 = true
          ∧ typeFilterOk none rowC6 = true)) :=
  search_semantics ⟨some "p", false⟩ dbC6 "SCRIPT" none rowC6 (by decide)
    (by unfold idsNodup; decide) (by decide)

/-- The C6 counterexample row: content "xyz". -/
def rowC6x : Row :=
  { id := 1, project_id := some "p", content := "xyz", type := "fact",
    source := "manual", tags := none, metadata := none,
    created_at := 0, updated_at := 0 }

/-- The C6 counterexample table: exactly that one row. -/
def dbC6x : DB := { rows := [rowC6x], nextId := 2 }

/-- Counterexample for C6: the query "x_z" returns the row with content
"xyz" (the `_` is a `LIKE` single-character wildcard), yet "x_z" is not a
case-insensitive substring of "xyz". -/
theorem search_wildcard_counterexample :
    (MemoryStore.search ⟨some "p", false⟩ dbC6x "x_z" none none).length = 1 ∧
    specContainsCI "x_z" "xyz" = false := by
  refine ⟨rfl, by decide⟩

/-- Claim C8 (amended): whenever a *non-root* ancestor `q` of the starting
directory carries the version-control marker and no closer ancestor does,
`detectProjectId` returns the hash of `q`'s canonicalized path, ignoring any
package manifests on the way.  (The unamended claim fails at the filesystem
root: the walk stops *before* probing the root, so a marker there is never
found.) -/
theorem gitroot_detection (fs : FileSystem) (q t : List String) (hq : q ≠ [])
    (hmark : fs.hasGit q = true)
    (hnear : ∀ r s, r ++ s = q ++ t → q.length < r.length → fs.hasGit r = false) :
    detectProjectId fs (q ++ t) = .ok (hashPath q) := by
  unfold detectProjectId
  rw [findGitRoot_eq fs q hq hmark t hnear]

/-- The C8 witness filesystem: the monorepo of the specification, with the
version-control root at `/repo` and manifests in two packages below it. -/
def fsMono : FileSystem :=
  { hasGit := fun d => d == ["repo"]
    hasPkg := fun d => d == ["repo", "packages", "web"] || d == ["repo", "packages", "api"]
    readFile := fun _ => .error () }

/-- Witness for C8: both packages of the monorepo resolve to the hash of
`/repo`, as does `/repo` itself. -/
theorem gitroot_detection_witness :
    (detectProjectId fsMono (["repo"] ++ ["packages", "web"]) = .ok (hashPath ["repo"]) ∧
     detectProjectId fsMono (["repo"] ++ ["packages", "api"]) = .ok (hashPath ["repo"]) ∧
     detectProjectId fsMono (["repo"] ++ []) = .ok (hashPath ["repo"])) :=
  ⟨gitroot_detection fsMono ["repo"] ["packages", "web"] (by decide) (by decide)
     (by
       intro r s hrs hlen
       show (r == ["repo"]) = false
       rw [beq_eq_false_iff_ne]
       intro h
       rw [h] at hlen
       simp at hlen),
   gitroot_detection fsMono ["repo"] ["packages", "api"] (by decide) (by decide)
     (by
       intro r s hrs hlen
       show (r == ["repo"]) = false
       rw [beq_eq_false_iff_ne]
       intro h
       rw [h] at hlen
       simp at hlen),
   gitroot_detection fsMono ["repo"] [] (by decide) (by decide)
     (by
       intro r s hrs hlen
       show (r == ["repo"]) = false
       rw [beq_eq_false_iff_ne]
       intro h
       rw [h] at hlen
       simp at hlen)⟩

/-- The C8 counterexample filesystem: the version-control marker sits at the
filesystem root and nowhere else. -/
def fsRootGit : FileSystem :=
  { hasGit := fun d => d == ([] : List String)
    hasPkg := fun _ => false
    readFile := fun _ => .error () }

set_option maxRecDepth 40000 in
/-- Counterexample for C8: with the marker at the root — an ancestor of
`/a` — resolution of `/a` falls through to strategy 3 and hashes `/a`
itself, not the marker-bearing ancestor. -/
theorem gitroot_at_root_counterexample :
    detectProjectId fsRootGit ["a"] = .ok (hashPath ["a"]) ∧
    hashPath ["a"] ≠ hashPath ([] : List String) := by
  refine ⟨rfl, by decide⟩

/-- The specification's canonicalization of one path character: lower-case
and convert the separator `\` to the canonical separator `/`. -/
def specCanonCh (c : Char) : Char := if c = '\\' then '/' else foldCh c

/-- ASCII case folding never produces a backslash. -/
theorem foldCh_ne_backslash (c : Char) (hc : c ≠ '\\') : foldCh c ≠ '\\' := by
  unfold foldCh
  by_cases h : 65 ≤ c.toNat ∧ c.toNat ≤ 90
  · rw [if_pos h]
    intro he
    have ht := congrArg Char.toNat he
    rw [char_toNat_ofNat_lt (by omega)] at ht
    rw [show ('\\').toNat = 92 from rfl] at ht
    omega
  · rw [if_neg h]
    exact hc

/-- The per-character map of `normalizePath` is the specification's
canonicalization: fold case, then turn the separator `\` into `/`. -/
theorem normalizePath_char_canon (c : Char) :
    (if foldCh c = '\\' then '/' else foldCh c) = specCanonCh c := by
  unfold specCanonCh
  by_cases hc : c = '\\'
  · rw [hc]
    rfl
  · rw [if_neg (foldCh_ne_backslash c hc), if_neg hc]

/-- `hashPath` depends only on the canonicalized path: paths agreeing up to
ASCII case and separator flavor hash to the same identifier. -/
theorem hashPath_canon (p q : List String)
    (h : (pathToString p).data.map specCanonCh = (pathToString q).data.map specCanonCh) :
    hashPath p = hashPath q := by
  unfold hashPath normalizePath
  have hmap : ∀ s : String,
      s.data.map (fun c => if foldCh c = '\\' then '/' else foldCh c)
        = s.data.map specCanonCh :=
    fun s => List.map_congr_left (fun c _ => normalizePath_char_canon c)
  rw [hmap, hmap, h]

/-- Claim C9 (amended): identifiers produced by strategy 1 (git root) and
strategy 3 (starting directory) are computed from the lower-cased,
separator-normalized canonical path — whenever the two strategy-1 git roots
(or, git and manifest probes all failing, the two starting directories)
have canonical paths agreeing up to ASCII case and `\`-versus-`/`
separator flavor, resolution yields the same identifier.  (The unamended
claim fails for strategy 2, which hashes the manifest's declared name and
raw path without any normalization.) -/
theorem normalization_path_strategies (fs fs' : FileSystem) (p q : List String) :
    (∀ g g', findGitRoot fs p = some g → findGitRoot fs' q = some g' →
        (pathToString g).data.map specCanonCh = (pathToString g').data.map specCanonCh →
        detectProjectId fs p = detectProjectId fs' q) ∧
    (findGitRoot fs p = none → findGitRoot fs' q = none →
      findPackageJson fs p = none → findPackageJson fs' q = none →
      (pathToString p).data.map specCanonCh = (pathToString q).data.map specCanonCh →
      detectProjectId fs p = detectProjectId fs' q) := by
  constructor
  · intro g g' hg hg' hcanon
    unfold detectProjectId
    rw [hg, hg']
    show Except.ok (hashPath g) = Except.ok (hashPath g')
    rw [hashPath_canon g g' hcanon]
  · intro hg hg' hpkg hpkg' hcanon
    unfold detectProjectId
    rw [hg, hg', hpkg, hpkg', hashPath_canon p q hcanon]

/-- The C9 witness filesystem: no marker and no manifest anywhere. -/
def fsNone : FileSystem :=
  { hasGit := fun _ => false, hasPkg := fun _ => false, readFile := fun _ => .error () }

/-- The C9 witness filesystem with a git root at `/Repo`. -/
def fsGitA : FileSystem :=
  { hasGit := fun d => d == ["Repo"], hasPkg := fun _ => false, readFile := fun _ => .error () }

/-- The C9 witness filesystem with a git root at `/repo`. -/
def fsGitB : FileSystem :=
  { hasGit := fun d => d == ["repo"], hasPkg := fun _ => false, readFile := fun _ => .error () }

/-- Witness for C9, all three facets: strategy 1 on case-variant git roots
`/Repo` and `/repo`; strategy 3 on case-variant directories `/A` and `/a`;
strategy 3 on separator-variant directories `/a\b` and `/a/b`. -/
theorem normalization_witness :
    (detectProjectId fsGitA ["Repo"] = detectProjectId fsGitB ["repo"] ∧
     detectProjectId fsNone ["A"] = detectProjectId fsNone ["a"] ∧
     detectProjectId fsNone ["a\\b"] = detectProjectId fsNone ["a", "b"]) :=
  ⟨(normalization_path_strategies fsGitA fsGitB ["Repo"] ["repo"]).1
     ["Repo"] ["repo"] rfl rfl (by decide),
   (normalization_path_strategies fsNone fsNone ["A"] ["a"]).2
     rfl rfl rfl rfl (by decide),
   (normalization_path_strategies fsNone fsNone ["a\\b"] ["a", "b"]).2
     rfl rfl rfl rfl (by decide)⟩

/-- The C9 counterexample filesystem, upper-case flavor: a manifest named
"x" at `/Proj`. -/
def fsCaseA : FileSystem :=
  { hasGit := fun _ => false
    hasPkg := fun d => d == ["Proj"]
    readFile := fun p =>
      if p == ["Proj", "package.json"] then .ok "\x7b\"name\":\"x\"\x7d" else .error () }

/-- The C9 counterexample filesystem, lower-case flavor: the same manifest
at `/proj`. -/
def fsCaseB : FileSystem :=
  { hasGit := fun _ => false
    hasPkg := fun d => d == ["proj"]
    readFile := fun p =>
      if p == ["proj", "package.json"] then .ok "\x7b\"name\":\"x\"\x7d" else .error () }

set_option maxRecDepth 40000 in
/-- Counterexample for C9: strategy 2 hashes the raw, un-lower-cased
manifest path, so the same project reached via `/Proj` and via `/proj`
yields two different identifiers. -/
theorem strategy2_not_normalized_counterexample :
    detectProjectId fsCaseA ["Proj"] = .ok (hashString "x:/Proj/package.json") ∧
    detectProjectId fsCaseB ["proj"] = .ok (hashString "x:/proj/package.json") ∧
    hashString "x:/Proj/package.json" ≠ hashString "x:/proj/package.json" := by
  refine ⟨rfl, rfl, by decide⟩

end Cortex
